import Mathlib

/-!
Verification of the `rdraw` stroke-tessellation core (`src/lib.rs`).

Shallow embedding conventions:
* `f32` scalars are embedded as `ℚ`; decimal literals of the source are taken
  at their decimal value.
* The transcendental `f32` operations (`sqrt`, `acos`, `atan2`, `sin`, `cos`)
  and the constants `PI` / `FRAC_1_PI` have no rational counterpart; they are
  carried as parameters in a `Ctx` record.  Theorems either hold for every
  choice of these parameters or take explicit hypotheses on them.
* Rust `Vec` buffers become `List`s, in-place mutation becomes explicit state
  passing, and code paths that panic in Rust (out-of-range indexing, `usize`
  underflow feeding an index) are modeled by a `Bool` success flag: the
  functions return the work done so far together with `false`.
-/

namespace RDraw

/-- Newton iteration for the integer square root, with explicit fuel so that
the recursion is structural (the guess strictly decreases, starts at `n / 2`
and is bounded by `n`, so `n` steps of fuel always suffice). -/
def sqrt_iter (n : Nat) : Nat → Nat → Nat
  | guess, 0 => guess
  | guess, fuel + 1 =>
    let next := (guess + n / guess) / 2
    if next < guess then sqrt_iter n next fuel else guess

/-- Integer square root (the same Newton iteration as `Nat.sqrt`, made
structurally recursive). -/
def nat_sqrt (n : Nat) : Nat :=
  if n ≤ 1 then n else sqrt_iter n (n / 2) n

/-- Model of `f32::sqrt` used by the default context: exact on nonnegative
rationals whose numerator and denominator are perfect squares (the only
inputs at which the theorems below evaluate it), arbitrary elsewhere.  `f32`
square roots of exactly representable perfect squares are exact, so this is
faithful there. -/
def ratSqrt (q : ℚ) : ℚ := (nat_sqrt q.num.toNat : ℚ) / (nat_sqrt q.den : ℚ)

/-- Parameters of the embedding: the transcendental `f32` operations and the
`PI` / `FRAC_1_PI` constants of the source, as opaque rational data. -/
structure Ctx where
  sqrtQ : ℚ → ℚ
  acosQ : ℚ → ℚ
  atan2Q : ℚ → ℚ → ℚ
  cosQ : ℚ → ℚ
  sinQ : ℚ → ℚ
  piQ : ℚ
  invPiQ : ℚ

/-- A concrete context usable for closed-form evaluation.  The transcendental
oracles other than `sqrtQ` are placeholders; no concrete theorem below
depends on their values. -/
def defaultCtx : Ctx where
  sqrtQ := ratSqrt
  acosQ := fun _ => 0
  atan2Q := fun _ _ => 0
  cosQ := fun _ => 0
  sinQ := fun _ => 0
  piQ := 355 / 113
  invPiQ := 113 / 355

/-- `enum Winding`. -/
inductive Winding where
  | CCW
  | CW
deriving DecidableEq

/-- `enum LineCap`. -/
inductive LineCap where
  | Butt
  | Round
  | Square
deriving DecidableEq

/-- `enum LineJoin`. -/
inductive LineJoin where
  | Round
  | Bevel
  | Miter
deriving DecidableEq

/-- `enum Command`. -/
inductive Command where
  | MoveTo (x y : ℚ)
  | LineTo (x y : ℚ)
  | BezierTo (cp1x cp1y cp2x cp2y x y : ℚ)
  | Close
  | Winding (winding : Winding)

/-- `struct Point` (flattener output). -/
structure Point where
  x : ℚ
  y : ℚ
  dx : ℚ
  dy : ℚ
  len : ℚ
  dmx : ℚ
  dmy : ℚ
  flags : Nat
deriving DecidableEq

/-- `struct Vertex` (mesh output). -/
structure Vertex where
  x : ℚ
  y : ℚ
  u : ℚ
  v : ℚ
deriving DecidableEq

/-- `struct PathVertexRef`. -/
structure PathVertexRef where
  first : Nat
  count : Nat
deriving DecidableEq

/-- `struct PathBuilder` (per sub-path record). -/
structure PathBuilder where
  first : Nat
  count : Nat
  closed : Bool
  winding : Winding
  nbevel : Nat
  convex : Bool
  stroke : Option PathVertexRef
  fill : Option PathVertexRef
deriving DecidableEq

/-- `struct PathCache`.  The `bounds` field is omitted: it is only an
accumulated bounding box and no claim concerns it. -/
structure PathCache where
  points : List Point
  verts : List Vertex
  paths : List PathBuilder
deriving DecidableEq

def POINT_CORNER : Nat := 0x01
def POINT_LEFT : Nat := 0x02
def POINT_BEVEL : Nat := 0x04
def POINT_INNER_BEVEL : Nat := 0x08

/-- `fn clamp<T>` of the source (generic over `PartialOrd`). -/
def clamp {α : Type} [LinearOrder α] (a mn mx : α) : α :=
  if a < mn then mn else if mx < a then mx else a

/-- Rust `f32 -> usize` conversion of a ceiled value (`.ceil() as usize`):
saturating at `0` for negative inputs. -/
def ceil_usize (q : ℚ) : Nat := (⌈q⌉ : ℤ).toNat

/-- `fn point_equals`. -/
def point_equals (x1 y1 x2 y2 tol : ℚ) : Bool :=
  let dx := x2 - x1
  let dy := y2 - y1
  decide (dx * dx + dy * dy < tol * tol)

/-- `fn triangle_area2`.  (`by` is a Lean keyword, hence `byq` for the source's
`by` argument.) -/
def triangle_area2 (ax ay bx byq cx cy : ℚ) : ℚ :=
  let abx := bx - ax
  let aby := byq - ay
  let acx := cx - ax
  let acy := cy - ay
  acx * aby - abx * acy

/-- The accumulation loop of `fn polygon_area`: for `i in 2..points.len()`,
`area += triangle_area2(points[0], points[i-1], points[i])`, i.e. a fold over
adjacent pairs of the tail of the list. -/
def polygon_area_fan (a : Point) : List Point → ℚ
  | b :: c :: rest => triangle_area2 a.x a.y b.x b.y c.x c.y + polygon_area_fan a (c :: rest)
  | _ => 0

/-- `fn polygon_area`.  The source indexes `points[0]` (and so panics on an
empty slice, which its only call site, guarded by `count > 2`, cannot
produce); the empty case here is arbitrary. -/
def polygon_area (points : List Point) : ℚ :=
  match points with
  | a :: rest => polygon_area_fan a rest * (1 / 2)
  | [] => 0

/-- `fn normalize`. -/
def normalize (ctx : Ctx) (x y : ℚ) : ℚ × ℚ × ℚ :=
  let len := ctx.sqrtQ (x * x + y * y)
  if 1 / 1000000 < len then
    let inv_len := 1 / len
    (x * inv_len, y * inv_len, len)
  else
    (x, y, len)

/-- `fn curve_divs`. -/
def curve_divs (ctx : Ctx) (r arc tol : ℚ) : Nat :=
  let da := ctx.acosQ (r / (r + tol)) * 2
  max (ceil_usize (arc / da)) 2

/-- `fn add_vert` (push onto the vertex buffer). -/
def add_vert (verts : List Vertex) (x y u v : ℚ) : List Vertex :=
  verts ++ [⟨x, y, u, v⟩]

/-- `fn choose_bevel`. -/
def choose_bevel (bevel : Nat) (p0 p1 : Point) (w : ℚ) : ℚ × ℚ × ℚ × ℚ :=
  if bevel ≠ 0 then
    (p1.x + p0.dy * w, p1.y - p0.dx * w, p1.x + p1.dy * w, p1.y - p1.dx * w)
  else
    (p1.x + p1.dmx * w, p1.y + p1.dmy * w, p1.x + p1.dmx * w, p1.y + p1.dmy * w)

/-- `fn bevel_join`. -/
def bevel_join (verts : List Vertex) (p0 p1 : Point) (lw rw lu ru : ℚ)
    (_fringe : ℚ) : List Vertex :=
  let dlx0 := p0.dy
  let dly0 := -p0.dx
  let dlx1 := p1.dy
  let dly1 := -p1.dx
  if p1.flags &&& POINT_LEFT ≠ 0 then
    let (lx0, ly0, lx1, ly1) := choose_bevel (p1.flags &&& POINT_INNER_BEVEL) p0 p1 lw
    let verts := add_vert verts lx0 ly0 lu 1
    let verts := add_vert verts (p1.x - dlx0 * rw) (p1.y - dly0 * rw) ru 1
    let verts :=
      if p1.flags &&& POINT_BEVEL ≠ 0 then
        let verts := add_vert verts lx0 ly0 lu 1
        let verts := add_vert verts (p1.x - dlx0 * rw) (p1.y - dly0 * rw) ru 1
        let verts := add_vert verts lx1 ly1 lu 1
        add_vert verts (p1.x - dlx1 * rw) (p1.y - dly1 * rw) ru 1
      else
        let rx0 := p1.x - p1.dmx * rw
        let ry0 := p1.y - p1.dmy * rw
        let verts := add_vert verts p1.x p1.y (1 / 2) 1
        let verts := add_vert verts (p1.x - dlx0 * rw) (p1.y - dly0 * rw) ru 1
        let verts := add_vert verts rx0 ry0 ru 1
        let verts := add_vert verts rx0 ry0 ru 1
        let verts := add_vert verts p1.x p1.y (1 / 2) 1
        add_vert verts (p1.x - dlx1 * rw) (p1.y - dly1 * rw) ru 1
    let verts := add_vert verts lx1 ly1 lu 1
    add_vert verts (p1.x - dlx1 * rw) (p1.y - dly1 * rw) ru 1
  else
    let (rx0, ry0, rx1, ry1) := choose_bevel (p1.flags &&& POINT_INNER_BEVEL) p0 p1 (-rw)
    let verts := add_vert verts (p1.x + dlx0 * lw) (p1.y + dly0 * lw) lu 1
    let verts := add_vert verts rx0 ry0 ru 1
    let verts :=
      if p1.flags &&& POINT_BEVEL ≠ 0 then
        let verts := add_vert verts (p1.x + dlx0 * lw) (p1.y + dly0 * lw) lu 1
        let verts := add_vert verts rx0 ry0 ru 1
        let verts := add_vert verts (p1.x + dlx1 * lw) (p1.y + dly1 * lw) lu 1
        add_vert verts rx1 ry1 ru 1
      else
        let lx0 := p1.x + p1.dmx * lw
        let ly0 := p1.y + p1.dmy * lw
        let verts := add_vert verts (p1.x + dlx0 * lw) (p1.y + dly0 * lw) lu 1
        let verts := add_vert verts p1.x p1.y (1 / 2) 1
        let verts := add_vert verts lx0 ly0 lu 1
        let verts := add_vert verts lx0 ly0 lu 1
        let verts := add_vert verts (p1.x + dlx1 * lw) (p1.y + dly1 * lw) lu 1
        add_vert verts p1.x p1.y (1 / 2) 1
    let verts := add_vert verts (p1.x + dlx1 * lw) (p1.y + dly1 * lw) lu 1
    add_vert verts rx1 ry1 ru 1

/-- The arc fan of the `POINT_LEFT` branch of `fn round_join`
(`for i in 0..n`, two vertices per iteration: center then rim). -/
def round_join_fan_left (ctx : Ctx) (p1x p1y rw ru a0 a1 : ℚ) (n : Nat)
    (verts : List Vertex) : List Vertex :=
  (List.range n).foldl
    (fun (verts : List Vertex) (i : Nat) =>
      let u := (i : ℚ) / ((n - 1 : Nat) : ℚ)
      let a := a0 + u * (a1 - a0)
      let rx := p1x + ctx.cosQ a * rw
      let ry := p1y + ctx.sinQ a * rw
      add_vert (add_vert verts p1x p1y (1 / 2) 1) rx ry ru 1)
    verts

/-- The arc fan of the non-`POINT_LEFT` branch of `fn round_join`
(rim then center). -/
def round_join_fan_right (ctx : Ctx) (p1x p1y lw lu a0 a1 : ℚ) (n : Nat)
    (verts : List Vertex) : List Vertex :=
  (List.range n).foldl
    (fun (verts : List Vertex) (i : Nat) =>
      let u := (i : ℚ) / ((n - 1 : Nat) : ℚ)
      let a := a0 + u * (a1 - a0)
      let lx := p1x + ctx.cosQ a * lw
      let ly := p1y + ctx.sinQ a * lw
      add_vert (add_vert verts lx ly lu 1) p1x p1y (1 / 2) 1)
    verts

/-- `fn round_join`.  `_2_PI` of the source (`2.0 * PI`, exact in `f32`) is
`2 * ctx.piQ`. -/
def round_join (ctx : Ctx) (verts : List Vertex) (p0 p1 : Point) (lw rw lu ru : ℚ)
    (ncap : Nat) (_fringe : ℚ) : List Vertex :=
  let dlx0 := p0.dy
  let dly0 := -p0.dx
  let dlx1 := p1.dy
  let dly1 := -p1.dx
  if p1.flags &&& POINT_LEFT ≠ 0 then
    let (lx0, ly0, lx1, ly1) := choose_bevel (p1.flags &&& POINT_INNER_BEVEL) p0 p1 lw
    let a0 := ctx.atan2Q (-dly0) (-dlx0)
    let a1 :=
      let a1 := ctx.atan2Q (-dly1) (-dlx1)
      if a0 < a1 then a1 - 2 * ctx.piQ else a1
    let verts := add_vert verts lx0 ly0 lu 1
    let verts := add_vert verts (p1.x - dlx0 * rw) (p1.y - dly0 * rw) ru 1
    let n := clamp (ceil_usize ((a0 - a1) * ctx.invPiQ * (ncap : ℚ))) 2 ncap
    let verts := round_join_fan_left ctx p1.x p1.y rw ru a0 a1 n verts
    let verts := add_vert verts lx1 ly1 lu 1
    add_vert verts (p1.x - dlx1 * rw) (p1.y - dly1 * rw) ru 1
  else
    let (rx0, ry0, rx1, ry1) := choose_bevel (p1.flags &&& POINT_INNER_BEVEL) p0 p1 (-rw)
    let a0 := ctx.atan2Q dly0 dlx0
    let a1 :=
      let a1 := ctx.atan2Q dly1 dlx1
      if a1 < a0 then a1 + 2 * ctx.piQ else a1
    let verts := add_vert verts (p1.x + dlx0 * rw) (p1.y + dly0 * rw) lu 1
    let verts := add_vert verts rx0 ry0 ru 1
    let n := clamp (ceil_usize ((a1 - a0) / ctx.piQ * (ncap : ℚ))) 2 ncap
    let verts := round_join_fan_right ctx p1.x p1.y lw lu a0 a1 n verts
    let verts := add_vert verts (p1.x + dlx1 * rw) (p1.y + dly1 * rw) lu 1
    add_vert verts rx1 ry1 ru 1

/-- `fn butt_cap_start`. -/
def butt_cap_start (verts : List Vertex) (p : Point) (dx dy w d aa u0 u1 : ℚ) :
    List Vertex :=
  let px := p.x - dx * d
  let py := p.y - dy * d
  let dlx := dy
  let dly := -dx
  let verts := add_vert verts (px + dlx * w - dx * aa) (py + dly * w - dy * aa) u0 0
  let verts := add_vert verts (px - dlx * w - dx * aa) (py - dly * w - dy * aa) u1 0
  let verts := add_vert verts (px + dlx * w) (py + dly * w) u0 1
  add_vert verts (px - dlx * w) (py - dly * w) u1 1

/-- `fn round_cap_start` (`for i in 0..ncap`, two vertices per iteration). -/
def round_cap_start (ctx : Ctx) (verts : List Vertex) (p : Point) (dx dy w : ℚ)
    (ncap : Nat) (_aa u0 u1 : ℚ) : List Vertex :=
  let px := p.x
  let py := p.y
  let dlx := dy
  let dly := -dx
  let verts :=
    (List.range ncap).foldl
      (fun (verts : List Vertex) (i : Nat) =>
        let a := (i : ℚ) / ((ncap - 1 : Nat) : ℚ) * ctx.piQ
        let ax := ctx.cosQ a * w
        let ay := ctx.sinQ a * w
        add_vert (add_vert verts (px - dlx * ax - dx * ay) (py - dly * ax - dy * ay) u0 1)
          px py (1 / 2) 1)
      verts
  let verts := add_vert verts (px + dlx * w) (py + dly * w) u0 1
  add_vert verts (px - dlx * w) (py - dly * w) u1 1

/-- `fn butt_cap_end`. -/
def butt_cap_end (verts : List Vertex) (p : Point) (dx dy w d aa u0 u1 : ℚ) :
    List Vertex :=
  let px := p.x + dx * d
  let py := p.y + dy * d
  let dlx := dy
  let dly := -dx
  let verts := add_vert verts (px + dlx * w) (py + dly * w) u0 1
  let verts := add_vert verts (px - dlx * w) (py - dly * w) u1 1
  let verts := add_vert verts (px + dlx * w + dx * aa) (py + dly * w + dy * aa) u0 0
  add_vert verts (px - dlx * w + dx * aa) (py - dly * w + dy * aa) u1 0

/-- `fn round_cap_end` (`for i in 0..ncap`, two vertices per iteration). -/
def round_cap_end (ctx : Ctx) (verts : List Vertex) (p : Point) (dx dy w : ℚ)
    (ncap : Nat) (_aa u0 u1 : ℚ) : List Vertex :=
  let px := p.x
  let py := p.y
  let dlx := dy
  let dly := -dx
  let verts := add_vert verts (px + dlx * w) (py + dly * w) u0 1
  let verts := add_vert verts (px - dlx * w) (py - dly * w) u1 1
  (List.range ncap).foldl
    (fun (verts : List Vertex) (i : Nat) =>
      let a := (i : ℚ) / ((ncap - 1 : Nat) : ℚ) * ctx.piQ
      let ax := ctx.cosQ a * w
      let ay := ctx.sinQ a * w
      add_vert (add_vert verts px py (1 / 2) 1)
        (px - dlx * ax + dx * ay) (py - dly * ax + dy * ay) u0 1)
    verts

/-- `PathCache::add_path`. -/
def add_path (c : PathCache) : PathCache :=
  { c with
    paths := c.paths ++
      [{ first := c.points.length, count := 0, closed := false, winding := Winding.CCW,
         nbevel := 0, convex := false, stroke := none, fill := none }] }

/-- `PathCache::add_point`.  The source checks `path.count > 0 &&
self.points.len() > 0` and then merges into `points.last_mut()`; the
`match` on `getLast?` is the `points.len() > 0` test. -/
def add_point (c : PathCache) (x y : ℚ) (flags : Nat) (dist_tol : ℚ) : PathCache :=
  match c.paths.getLast? with
  | none => c
  | some path =>
    let push : PathCache :=
      { c with
        points := c.points ++ [{ x := x, y := y, dx := 0, dy := 0, len := 0,
                                 dmx := 0, dmy := 0, flags := flags }],
        paths := c.paths.dropLast ++ [{ path with count := path.count + 1 }] }
    match c.points.getLast? with
    | some last_point =>
      if 0 < path.count ∧ point_equals last_point.x last_point.y x y dist_tol then
        { c with
          points := c.points.dropLast ++
            [{ last_point with flags := last_point.flags ||| flags }] }
      else push
    | none => push

/-- `PathCache::close_path`. -/
def close_path (c : PathCache) : PathCache :=
  match c.paths.getLast? with
  | none => c
  | some path => { c with paths := c.paths.dropLast ++ [{ path with closed := true }] }

/-- `PathCache::path_winding`. -/
def path_winding (c : PathCache) (winding : Winding) : PathCache :=
  match c.paths.getLast? with
  | none => c
  | some path => { c with paths := c.paths.dropLast ++ [{ path with winding := winding }] }

/-- The recursion of `PathCache::tesselate_bezier`, structurally recursive on
the remaining depth budget: the source recurses with `level + 1` and returns
immediately when `level > 10`, which is exactly `fuel = 11 - level` reaching
`0` (the recursive calls decrement `fuel` as the source increments `level`;
`level` has no other use in the source body). -/
def tesselate_bezier_go (c : PathCache) (x1 y1 x2 y2 x3 y3 x4 y4 : ℚ)
    (fuel flags : Nat) (tess_tol dist_tol : ℚ) : PathCache :=
  match fuel with
  | 0 => c
  | fuel + 1 =>
    let x12 := (x1 + x2) * (1 / 2)
    let y12 := (y1 + y2) * (1 / 2)
    let x23 := (x2 + x3) * (1 / 2)
    let y23 := (y2 + y3) * (1 / 2)
    let x34 := (x3 + x4) * (1 / 2)
    let y34 := (y3 + y4) * (1 / 2)
    let x123 := (x12 + x23) * (1 / 2)
    let y123 := (y12 + y23) * (1 / 2)
    let dx := x4 - x1
    let dy := y4 - y1
    let d2 := |(x2 - x4) * dy - (y2 - y4) * dx|
    let d3 := |(x3 - x4) * dy - (y3 - y4) * dx|
    if (d2 + d3) * (d2 + d3) < tess_tol * (dx * dx + dy * dy) then
      add_point c x4 y4 flags dist_tol
    else
      let x234 := (x23 + x34) * (1 / 2)
      let y234 := (y23 + y34) * (1 / 2)
      let x1234 := (x123 + x234) * (1 / 2)
      let y1234 := (y123 + y234) * (1 / 2)
      let c := tesselate_bezier_go c x1 y1 x12 y12 x123 y123 x1234 y1234 fuel 0
        tess_tol dist_tol
      tesselate_bezier_go c x1234 y1234 x234 y234 x34 y34 x4 y4 fuel flags
        tess_tol dist_tol

/-- `PathCache::tesselate_bezier` (the `level` argument of the source, capped
at 10, carried as the remaining budget `11 - level`). -/
def tesselate_bezier (c : PathCache) (x1 y1 x2 y2 x3 y3 x4 y4 : ℚ) (level : Nat)
    (flags : Nat) (tess_tol dist_tol : ℚ) : PathCache :=
  tesselate_bezier_go c x1 y1 x2 y2 x3 y3 x4 y4 (11 - level) flags tess_tol dist_tol

/-- The sub-slice `&points[first..(first + count)]` of the shared point buffer. -/
def seg (pts : List Point) (first count : Nat) : List Point :=
  (pts.drop first).take count

/-- In-place mutation of the sub-slice `&mut points[first..(first + count)]`. -/
def update_seg (pts : List Point) (first count : Nat) (f : List Point → List Point) :
    List Point :=
  pts.take first ++ f (seg pts first count) ++ pts.drop (first + count)

/-- The reversal test of the winding-enforcement step of
`PathCache::flatten_paths`: reverse exactly when the computed area sign
strictly disagrees with the requested winding. -/
def should_reverse (winding : Winding) (points : List Point) : Bool :=
  match winding with
  | Winding.CCW => decide (polygon_area points < 0)
  | Winding.CW => decide (0 < polygon_area points)

/-- The winding-enforcement step of `PathCache::flatten_paths` (the
`if path.count > 2 { ... }` block; the slice length equals `path.count`). -/
def enforce_winding (winding : Winding) (points : List Point) : List Point :=
  if 2 < points.length then
    if should_reverse winding points then points.reverse else points
  else points

/-- The list rotated left by one: `tail ++ [head]`. -/
def rotate_left (l : List Point) : List Point :=
  l.drop 1 ++ l.take 1

/-- The list rotated right by one: `[last] ++ init`. -/
def rotate_right (l : List Point) : List Point :=
  l.drop (l.length - 1) ++ l.take (l.length - 1)

/-- The tangent pass of `PathCache::flatten_paths`: iterating
`edges_iter_mut` (pairs `(i, (i+1) mod n)`, wrap edge first), each pair
stores on its first point the normalized direction and length toward its
second.  Positions are never written during the pass, so the in-place loop
equals this map over the original positions. -/
def tangent_pass (ctx : Ctx) (points : List Point) : List Point :=
  points.zipWith
    (fun p0 p1 =>
      let (dx, dy, len) := normalize ctx (p1.x - p0.x) (p1.y - p0.y)
      { p0 with dx := dx, dy := dy, len := len })
    (rotate_left points)

/-- The per-path post-pass of `PathCache::flatten_paths`: close-point merge,
winding enforcement, tangent pass.  Returns `false` when the first/last
lookup fails (an empty sub-path: the source's `points[path.count - 1]`
underflows/indexes out of range and panics there). -/
def post_pass_path (ctx : Ctx) (pts : List Point) (path : PathBuilder)
    (dist_tol : ℚ) : List Point × PathBuilder × Bool :=
  let s := seg pts path.first path.count
  match s.getLast?, s.head? with
  | some p0, some p1 =>
    let (count, closed) :=
      if point_equals p0.x p0.y p1.x p1.y dist_tol then (path.count - 1, true)
      else (path.count, path.closed)
    let pts := update_seg pts path.first count (enforce_winding path.winding)
    let pts := update_seg pts path.first count (tangent_pass ctx)
    (pts, { path with count := count, closed := closed }, true)
  | _, _ => (pts, path, false)

/-- The post-pass loop of `PathCache::flatten_paths` over all sub-paths,
stopping at the first panic. -/
def post_pass (ctx : Ctx) (pts : List Point) (paths : List PathBuilder)
    (dist_tol : ℚ) : List Point × List PathBuilder × Bool :=
  match paths with
  | [] => (pts, [], true)
  | path :: rest =>
    match post_pass_path ctx pts path dist_tol with
    | (pts, path, true) =>
      let (pts, rest, ok) := post_pass ctx pts rest dist_tol
      (pts, path :: rest, ok)
    | (pts, path, false) => (pts, path :: rest, false)

/-- The command loop of `PathCache::flatten_paths`. -/
def flatten_commands (c : PathCache) (commands : List Command)
    (tess_tol dist_tol : ℚ) : PathCache :=
  commands.foldl
    (fun c command =>
      match command with
      | Command.MoveTo x y => add_point (add_path c) x y POINT_CORNER dist_tol
      | Command.LineTo x y => add_point c x y POINT_CORNER dist_tol
      | Command.BezierTo cp1x cp1y cp2x cp2y x y =>
        match c.points.getLast? with
        | some last => tesselate_bezier c last.x last.y cp1x cp1y cp2x cp2y x y 0
            POINT_CORNER tess_tol dist_tol
        | none => c
      | Command.Close => close_path c
      | Command.Winding winding => path_winding c winding)
    c

/-- `PathCache::flatten_paths` (bounds accumulation omitted). -/
def flatten_paths (ctx : Ctx) (c : PathCache) (commands : List Command)
    (tess_tol dist_tol : ℚ) : PathCache × Bool :=
  let c := flatten_commands c commands tess_tol dist_tol
  let (pts, paths, ok) := post_pass ctx c.points c.paths dist_tol
  ({ c with points := pts, paths := paths }, ok)

/-- One iteration of the edge loop of `PathCache::calculate_joins`, producing
the updated `p1`.  The loop writes only `dmx`, `dmy`, `flags` of `p1` and
reads only `x`, `y`, `dx`, `dy`, `len` of `p0` and `p1` (fields never written
by this pass), so the in-place aliased iteration equals this function mapped
over the original points (`p0` the cyclic predecessor of `p1`). -/
def join_point (iw : ℚ) (line_join : LineJoin) (miter_limit : ℚ) (p0 p1 : Point) :
    Point :=
  let dlx0 := p0.dy
  let dly0 := -p0.dx
  let dlx1 := p1.dy
  let dly1 := -p1.dx
  let dmx := (dlx0 + dlx1) * (1 / 2)
  let dmy := (dly0 + dly1) * (1 / 2)
  let dmr2 := dmx * dmx + dmy * dmy
  let (dmx, dmy) :=
    if 1 / 1000000 < dmr2 then
      let scale := 1 / dmr2
      let scale := if 600 < scale then 600 else scale
      (dmx * scale, dmy * scale)
    else (dmx, dmy)
  let flags := if p1.flags &&& POINT_CORNER ≠ 0 then POINT_CORNER else 0
  let cross := p1.dx * p0.dy - p0.dx * p1.dy
  let flags := if 0 < cross then flags ||| POINT_LEFT else flags
  let limit := max (min p0.len p1.len * iw) (101 / 100)
  let flags := if dmr2 * limit * limit < 1 then flags ||| POINT_INNER_BEVEL else flags
  let flags :=
    if flags &&& POINT_CORNER ≠ 0 ∧
        (dmr2 * miter_limit * miter_limit < 1 ∨ line_join = LineJoin.Bevel ∨
          line_join = LineJoin.Round) then
      flags ||| POINT_BEVEL
    else flags
  { p1 with dmx := dmx, dmy := dmy, flags := flags }

/-- Whether a point carries either bevel flag (the `nbevel` increment test of
`calculate_joins`, also the join test of `expand_stroke`). -/
def bevel_flagged (p : Point) : Bool :=
  p.flags &&& (POINT_BEVEL ||| POINT_INNER_BEVEL) != 0

/-- Whether a point carries the left-turn flag (set exactly when the
`cross > 0` test of `calculate_joins` incremented `nleft`). -/
def left_flagged (p : Point) : Bool :=
  p.flags &&& POINT_LEFT != 0

/-- The per-path loop of `PathCache::calculate_joins`.  `nleft` is declared
outside this loop in the source and therefore accumulates across sub-paths;
each sub-path's edge pass visits every point as `p1` exactly once, so the
per-path `nleft` increment and final `nbevel` are the flag counts of the
updated segment. -/
def calculate_joins_go (iw : ℚ) (line_join : LineJoin) (miter_limit : ℚ) :
    List Point → List PathBuilder → Nat → List Point × List PathBuilder
  | pts, [], _ => (pts, [])
  | pts, path :: rest, nleft =>
    let s := seg pts path.first path.count
    let s' := (rotate_right s).zipWith (join_point iw line_join miter_limit) s
    let nleft := nleft + s'.countP left_flagged
    let path' := { path with
      nbevel := s'.countP bevel_flagged,
      convex := decide (nleft = path.count) }
    let pts := update_seg pts path.first path.count (fun _ => s')
    let (pts, rest) := calculate_joins_go iw line_join miter_limit pts rest nleft
    (pts, path' :: rest)

/-- `PathCache::calculate_joins`. -/
def calculate_joins (c : PathCache) (w : ℚ) (line_join : LineJoin)
    (miter_limit : ℚ) : PathCache :=
  let iw := if 0 < w then 1 / w else 0
  let (pts, paths) := calculate_joins_go iw line_join miter_limit c.points c.paths 0
  { c with points := pts, paths := paths }

/-- The interior-vertex loop of `PathCache::expand_stroke`
(`for _ in start..end`): emit for the current `p1`, then advance
`p1_index` and re-index `points[p1_index]`; a failing index is the source's
panic (`false`). -/
def emit_loop (ctx : Ctx) (points : List Point) (line_join : LineJoin)
    (w : ℚ) (ncap : Nat) (aa u0 u1 : ℚ) :
    Nat → Nat → Point → Point → List Vertex → List Vertex × Bool × Point × Point
  | _, 0, p0, p1, verts => (verts, true, p0, p1)
  | p1_index, iters + 1, p0, p1, verts =>
    let verts :=
      if bevel_flagged p1 then
        if line_join = LineJoin.Round then round_join ctx verts p0 p1 w w u0 u1 ncap aa
        else bevel_join verts p0 p1 w w u0 u1 aa
      else
        add_vert (add_vert verts (p1.x + p1.dmx * w) (p1.y + p1.dmy * w) u0 1)
          (p1.x - p1.dmx * w) (p1.y - p1.dmy * w) u1 1
    match points.get? (p1_index + 1) with
    | some p1' => emit_loop ctx points line_join w ncap aa u0 u1 (p1_index + 1) iters p1 p1' verts
    | none => (verts, false, p0, p1)

/-- The per-path body of `PathCache::expand_stroke`.  For a closed path the
source initializes `p0 = &points[path.count - 1]` (a `usize` underflow /
out-of-range panic when `count = 0`, `false` here) and runs the loop over all
`count` edges; for an open path it indexes `points[0]` and `points[1]`
(panicking when `count < 2`), emits the start cap, runs the loop over
`count - 2` interior vertices and emits the end cap.  The loop-closure step
reads `verts[0]` / `verts[1]` of the global vertex buffer, as the source
does. -/
def expand_one (ctx : Ctx) (pts : List Point) (path : PathBuilder)
    (line_cap : LineCap) (line_join : LineJoin) (w : ℚ) (ncap : Nat)
    (aa u0 u1 : ℚ) (verts : List Vertex) : PathBuilder × List Vertex × Bool :=
  let first := verts.length
  let points := seg pts path.first path.count
  let path := { path with fill := none }
  if path.closed then
    match points.get? (path.count - 1), points.get? 0 with
    | some p0, some p1 =>
      let (verts, ok, _, _) :=
        emit_loop ctx points line_join w ncap aa u0 u1 0 path.count p0 p1 verts
      if ok then
        match verts.get? 0, verts.get? 1 with
        | some v0, some v1 =>
          let verts := add_vert (add_vert verts v0.x v0.y u0 1) v1.x v1.y u1 1
          ({ path with stroke := some ⟨first, verts.length - first⟩ }, verts, true)
        | _, _ => (path, verts, false)
      else (path, verts, false)
    | _, _ => (path, verts, false)
  else
    match points.get? 0, points.get? 1 with
    | some p0, some p1 =>
      let (dx, dy, _) := normalize ctx (p1.x - p0.x) (p1.y - p0.y)
      let verts :=
        match line_cap with
        | LineCap.Butt => butt_cap_start verts p0 dx dy w (-aa * (1 / 2)) aa u0 u1
        | LineCap.Square => butt_cap_start verts p0 dx dy w (w - aa) aa u0 u1
        | LineCap.Round => round_cap_start ctx verts p0 dx dy w ncap aa u0 u1
      let (verts, ok, p0, p1) :=
        emit_loop ctx points line_join w ncap aa u0 u1 1 (path.count - 2) p0 p1 verts
      if ok then
        let (dx, dy, _) := normalize ctx (p1.x - p0.x) (p1.y - p0.y)
        let verts :=
          match line_cap with
          | LineCap.Butt => butt_cap_end verts p1 dx dy w (-aa * (1 / 2)) aa u0 u1
          | LineCap.Square => butt_cap_end verts p1 dx dy w (w - aa) aa u0 u1
          | LineCap.Round => round_cap_end ctx verts p1 dx dy w ncap aa u0 u1
        ({ path with stroke := some ⟨first, verts.length - first⟩ }, verts, true)
      else (path, verts, false)
    | _, _ => (path, verts, false)

/-- The path loop of `PathCache::expand_stroke`, stopping at the first
panic. -/
def expand_go (ctx : Ctx) (pts : List Point) (line_cap : LineCap)
    (line_join : LineJoin) (w : ℚ) (ncap : Nat) (aa u0 u1 : ℚ) :
    List PathBuilder → List Vertex → List PathBuilder × List Vertex × Bool
  | [], verts => ([], verts, true)
  | path :: rest, verts =>
    match expand_one ctx pts path line_cap line_join w ncap aa u0 u1 verts with
    | (path, verts, true) =>
      let (rest, verts, ok) := expand_go ctx pts line_cap line_join w ncap aa u0 u1 rest verts
      (path :: rest, verts, ok)
    | (path, verts, false) => (path :: rest, verts, false)

/-- One iteration of the reservation loop of `PathCache::expand_stroke`:
the worst-case vertex allowance for one sub-path. -/
def path_cverts (path : PathBuilder) (line_cap : LineCap)
    (line_join : LineJoin) (ncap : Nat) : Nat :=
  let is_loop := path.closed
  let base :=
    if line_join = LineJoin.Round then
      (path.count + path.nbevel * (ncap + 2) + 1) * 2
    else
      (path.count + path.nbevel * 5 + 1) * 2
  if !is_loop then
    if line_cap = LineCap.Round then base + (ncap * 2 + 2) * 2
    else base + (3 + 3) * 2
  else base

/-- The reservation computed by `PathCache::expand_stroke` before emission
(`cverts`), used to pre-reserve the vertex buffer. -/
def cverts_of (paths : List PathBuilder) (line_cap : LineCap)
    (line_join : LineJoin) (ncap : Nat) : Nat :=
  paths.foldl (fun cverts path => cverts + path_cverts path line_cap line_join ncap) 0

/-- `PathCache::expand_stroke`.  The vertex buffer is cleared, then
`cverts_of` elements are reserved (no observable effect in the model), then
the paths are expanded. -/
def expand_stroke (ctx : Ctx) (c : PathCache) (w fringe : ℚ) (line_cap : LineCap)
    (line_join : LineJoin) (miter_limit tess_tol : ℚ) : PathCache × Bool :=
  let aa := fringe
  let uv : ℚ × ℚ := if aa = 0 then (1 / 2, 1 / 2) else (0, 1)
  let ncap := curve_divs ctx w ctx.piQ tess_tol
  let w := w + aa * (1 / 2)
  let c := calculate_joins c w line_join miter_limit
  let r := expand_go ctx c.points line_cap line_join w ncap aa uv.1 uv.2 c.paths []
  ({ c with verts := r.2.1, paths := r.1 }, r.2.2)

/-- The stroke paint data the claims touch: the two colors' components
(`[f32; 4]`, index 3 the alpha).  The remaining `Paint` fields are opaque
pass-through. -/
structure Col4 where
  c0 : ℚ
  c1 : ℚ
  c2 : ℚ
  c3 : ℚ
deriving DecidableEq

/-- `struct State` (scissor and the opaque `Paint` fields omitted). -/
structure State where
  line_width : ℚ
  line_cap : LineCap
  line_join : LineJoin
  miter_limit : ℚ
  inner_color : Col4
  outer_color : Col4
  shape_anti_alias : Bool
deriving DecidableEq

/-- `struct Canvas`. -/
structure Canvas where
  commands : List Command
  state : State
  cache : PathCache
  pixels_per_point : ℚ
  tess_tol : ℚ
  dist_tol : ℚ
  fringe : ℚ

/-- What `Canvas::stroke` hands to the renderer: the cloned (and possibly
alpha-scaled) state, the effective line width, the fringe, and whether the
pipeline completed without a panic. -/
structure StrokeCall where
  state : State
  line_width : ℚ
  fringe : ℚ
  ok : Bool

/-- `Canvas::stroke` (the renderer call itself is external).  The source
clones `self.state`, so the canvas's stored state is untouched. -/
def stroke (ctx : Ctx) (c : Canvas) : StrokeCall × Canvas :=
  let state := c.state
  let scale : ℚ := 1
  let line_width := clamp (state.line_width * scale) 0 200
  let (state, line_width) :=
    if line_width < c.fringe then
      let alpha := clamp (line_width / c.fringe) 0 1
      ({ state with
          inner_color := { state.inner_color with c3 := state.inner_color.c3 * (alpha * alpha) },
          outer_color := { state.outer_color with c3 := state.outer_color.c3 * (alpha * alpha) } },
        c.fringe)
    else (state, line_width)
  let (cache, okF) := flatten_paths ctx c.cache c.commands c.tess_tol c.dist_tol
  let fringe := if state.shape_anti_alias then c.fringe else 0
  let (cache, okE) := expand_stroke ctx cache (line_width * (1 / 2)) fringe
    state.line_cap state.line_join state.miter_limit c.tess_tol
  ({ state := state, line_width := line_width, fringe := fringe, ok := okF && okE },
    { c with cache := cache })

/-! ### Auxiliary definitions used in the theorems below -/

/-- Cross product of two position vectors (proof helper). -/
def crossP (p q : Point) : ℚ := p.x * q.y - p.y * q.x

/-- Sum of `crossP c b` over adjacent pairs `(b, c)` (proof helper). -/
def adjSum : List Point → ℚ
  | b :: c :: rest => crossP c b + adjSum (c :: rest)
  | _ => 0

/-- Default point used to read heads/lasts of lists in proofs. -/
def pt0 : Point := ⟨0, 0, 0, 0, 0, 0, 0, 0⟩

/-- Cyclic cross-product sum of a polygon (proof helper). -/
def cycSum (l : List Point) : ℚ :=
  adjSum l + crossP (l.head?.getD pt0) (l.getLast?.getD pt0)

/-- The updated segment produced by one iteration of the calculate_joins path
loop (proof helper naming the zipWith). -/
def joined_seg (iw : ℚ) (lj : LineJoin) (ml : ℚ) (s : List Point) : List Point :=
  (rotate_right s).zipWith (join_point iw lj ml) s

/-- A unit square traversed in the code's left-turn orientation, with the
tangent fields `dx, dy, len` exactly as the flatten pass computes them. -/
def unit_square_points (ox : ℚ) : List Point :=
  [{ x := ox, y := 0, dx := 0, dy := 1, len := 1, dmx := 0, dmy := 0, flags := POINT_CORNER },
   { x := ox, y := 1, dx := 1, dy := 0, len := 1, dmx := 0, dmy := 0, flags := POINT_CORNER },
   { x := ox + 1, y := 1, dx := 0, dy := -1, len := 1, dmx := 0, dmy := 0, flags := POINT_CORNER },
   { x := ox + 1, y := 0, dx := -1, dy := 0, len := 1, dmx := 0, dmy := 0, flags := POINT_CORNER }]

/-- A closed 4-point sub-path starting at index `f`. -/
def square_path (f : Nat) : PathBuilder :=
  { first := f, count := 4, closed := true, winding := Winding.CCW, nbevel := 0,
    convex := false, stroke := none, fill := none }

/-- A cache holding two disjoint unit squares, each of whose vertices is a
left turn. -/
def two_squares_cache : PathCache :=
  { points := unit_square_points 0 ++ unit_square_points 10, verts := [],
    paths := [square_path 0, square_path 4] }

/-- A canvas holding the open segment `(0,0) → (10,0)`, line width 2, Butt
caps, anti-aliasing disabled, at the default tolerances
(`pixels_per_point = 1`, so `tess_tol = 1/4`, `dist_tol = 1/100`,
`fringe = 1`). -/
def segment_canvas : Canvas :=
  { commands := [Command.MoveTo 0 0, Command.LineTo 10 0],
    state := { line_width := 2, line_cap := LineCap.Butt, line_join := LineJoin.Miter,
               miter_limit := 10, inner_color := ⟨0, 0, 0, 1⟩,
               outer_color := ⟨0, 0, 0, 1⟩, shape_anti_alias := false },
    cache := { points := [], verts := [], paths := [] },
    pixels_per_point := 1, tess_tol := 1 / 4, dist_tol := 1 / 100, fringe := 1 }

/-- A canvas holding a single `MoveTo` (a sub-path with one point, which the
flatten post-pass dedups to zero points and marks closed). -/
def single_move_canvas : Canvas :=
  { segment_canvas with commands := [Command.MoveTo 0 0] }

/-- The sweep angle of `fn round_join`, exactly as the source computes it
from the two adjacent edge tangents (monotonic from the incoming to the
outgoing edge angle, with a `2π` correction so the interpolation sweeps
consistently with the turn sign). -/
def round_join_sweep (ctx : Ctx) (p0 p1 : Point) : ℚ :=
  let dlx0 := p0.dy
  let dly0 := -p0.dx
  let dlx1 := p1.dy
  let dly1 := -p1.dx
  if p1.flags &&& POINT_LEFT ≠ 0 then
    let a0 := ctx.atan2Q (-dly0) (-dlx0)
    let a1 :=
      let a1 := ctx.atan2Q (-dly1) (-dlx1)
      if a0 < a1 then a1 - 2 * ctx.piQ else a1
    a0 - a1
  else
    let a0 := ctx.atan2Q dly0 dlx0
    let a1 :=
      let a1 := ctx.atan2Q dly1 dlx1
      if a1 < a0 then a1 + 2 * ctx.piQ else a1
    a1 - a0

/-- The claim's arc-step count formula: `clamp(ceil((θ/π)·ncap), 2, ncap)`. -/
def spec_arc_steps (ctx : Ctx) (theta : ℚ) (ncap : Nat) : Nat :=
  clamp (ceil_usize (theta / ctx.piQ * (ncap : ℚ))) 2 ncap

/-- A context for the C6 witness: `piQ`-consistent constants, an `acos`
oracle returning `3/10` (≈ `acos(5/5.25)`), and an `atan2` oracle making the
corner's sweep exactly `piQ / 2`. -/
def ctx6 : Ctx :=
  { sqrtQ := ratSqrt, acosQ := fun _ => 3 / 10,
    atan2Q := fun y x => if y = 1 ∧ x = 0 then 355 / 226 else 0,
    cosQ := fun _ => 0, sinQ := fun _ => 0, piQ := 355 / 113, invPiQ := 113 / 355 }

/-- Incoming edge tangent of a 90° left corner. -/
def corner_p0 : Point :=
  { x := 0, y := 0, dx := 1, dy := 0, len := 1, dmx := 0, dmy := 0, flags := POINT_CORNER }

/-- Corner point with outgoing tangent perpendicular to the incoming one,
classified as a left turn. -/
def corner_p1 : Point :=
  { x := 1, y := 0, dx := 0, dy := 1, len := 1, dmx := 0, dmy := 0, flags := POINT_LEFT }

/-- Well-formedness of the sub-path records of a cache: the sub-paths occupy
ordered, non-overlapping segments of the point buffer starting at or after
`lo` (every cache built by the flattener satisfies this with `lo = 0`). -/
def paths_in_order (pts_len : Nat) : Nat → List PathBuilder → Bool
  | _, [] => true
  | lo, p :: rest =>
    decide (lo ≤ p.first) && decide (p.first + p.count ≤ pts_len) &&
      paths_in_order pts_len (p.first + p.count) rest

/-! ### Helper lemmas -/

theorem clamp_lower_le {a mn mx : ℚ} (h : mn ≤ mx) : mn ≤ clamp a mn mx := by
  unfold clamp
  split
  · exact le_refl mn
  · split
    · exact h
    · linarith

theorem clamp_id_of_bounds {a mn mx : ℚ} (h1 : ¬ a < mn) (h2 : ¬ mx < a) :
    clamp a mn mx = a := by
  unfold clamp
  rw [if_neg h1, if_neg h2]

/-! ### C9: the normalize routine -/

/-- C9 (amended): `normalize` never divides by anything that is not strictly
positive; when the computed length is at or below the `1e-6` floor it returns
the input vector unnormalized together with that (possibly nonzero) length —
not a zero direction and zero length — and when the length is above the
floor and the square-root oracle is exact, it returns a unit-length direction
and the true length. -/
theorem normalize_degenerate_and_unit (ctx : Ctx) (x y : ℚ) :
    (ctx.sqrtQ (x * x + y * y) ≤ 1 / 1000000 →
      normalize ctx x y = (x, y, ctx.sqrtQ (x * x + y * y))) ∧
    (1 / 1000000 < ctx.sqrtQ (x * x + y * y) →
      ctx.sqrtQ (x * x + y * y) * ctx.sqrtQ (x * x + y * y) = x * x + y * y →
      (normalize ctx x y).1 * (normalize ctx x y).1 +
          (normalize ctx x y).2.1 * (normalize ctx x y).2.1 = 1 ∧
        (normalize ctx x y).2.2 * (normalize ctx x y).2.2 = x * x + y * y) := by
  constructor
  · intro h
    simp only [normalize]
    rw [if_neg (not_lt.mpr h)]
  · intro h hexact
    have hpos : 0 < ctx.sqrtQ (x * x + y * y) := lt_trans (by norm_num) h
    have hne : ctx.sqrtQ (x * x + y * y) ≠ 0 := ne_of_gt hpos
    simp only [normalize, if_pos h]
    refine ⟨?_, hexact⟩
    field_simp
    linarith [hexact]

/-- C9, counterexample to the claim as stated: at the degenerate input
`(1e-7, 0)` the computed length is at or below the `1e-6` floor, yet
`normalize` returns the input vector and its nonzero length rather than a
zero direction and zero length. -/
theorem normalize_degenerate_not_zero :
    (defaultCtx.sqrtQ ((1 / 10000000 : ℚ) * (1 / 10000000) + 0 * 0) ≤ 1 / 1000000) ∧
      normalize defaultCtx (1 / 10000000) 0 ≠ ((0 : ℚ), (0 : ℚ), (0 : ℚ)) := by
  constructor
  · with_unfolding_all decide
  · with_unfolding_all decide

/-- C9 witness: `normalize` at the non-degenerate input `(3, 4)`. -/
theorem normalize_degenerate_and_unit_witness :
    (normalize defaultCtx 3 4).1 * (normalize defaultCtx 3 4).1 +
        (normalize defaultCtx 3 4).2.1 * (normalize defaultCtx 3 4).2.1 = 1 ∧
      (normalize defaultCtx 3 4).2.2 * (normalize defaultCtx 3 4).2.2 =
        (3 : ℚ) * 3 + 4 * 4 :=
  (normalize_degenerate_and_unit defaultCtx 3 4).2
    (by with_unfolding_all decide) (by with_unfolding_all decide)

/-! ### C8: point de-duplication in add_point -/

/-- C8: on a freshly started sub-path, appending a point and then a second
point within `dist_tol` of it stores exactly one point whose flag set is the
union of both, and appending the duplicate again changes nothing further. -/
theorem add_point_dedup_idempotent (c : PathCache) (path : PathBuilder)
    (x1 y1 x2 y2 : ℚ) (f1 f2 : Nat) (tol : ℚ)
    (hlast : c.paths.getLast? = some path) (hcount : path.count = 0)
    (heq : point_equals x1 y1 x2 y2 tol = true) :
    add_point (add_point c x1 y1 f1 tol) x2 y2 f2 tol =
        { c with
          points := c.points ++
            [{ x := x1, y := y1, dx := 0, dy := 0, len := 0, dmx := 0, dmy := 0,
               flags := f1 ||| f2 }],
          paths := c.paths.dropLast ++ [{ path with count := 1 }] } ∧
      add_point (add_point (add_point c x1 y1 f1 tol) x2 y2 f2 tol) x2 y2 f2 tol =
        add_point (add_point c x1 y1 f1 tol) x2 y2 f2 tol := by
  have h1 : add_point c x1 y1 f1 tol =
      { c with
        points := c.points ++
          [{ x := x1, y := y1, dx := 0, dy := 0, len := 0, dmx := 0, dmy := 0,
             flags := f1 }],
        paths := c.paths.dropLast ++ [{ path with count := 1 }] } := by
    unfold add_point
    rw [hlast]
    match hp : c.points.getLast? with
    | none => simp [hcount]
    | some lp => simp [hp, hcount]
  have h2 : add_point (add_point c x1 y1 f1 tol) x2 y2 f2 tol =
      { c with
        points := c.points ++
          [{ x := x1, y := y1, dx := 0, dy := 0, len := 0, dmx := 0, dmy := 0,
             flags := f1 ||| f2 }],
        paths := c.paths.dropLast ++ [{ path with count := 1 }] } := by
    rw [h1]
    unfold add_point
    simp only [List.getLast?_concat]
    rw [if_pos ⟨by norm_num, by simpa [point_equals] using heq⟩]
    simp [List.dropLast_concat]
  refine ⟨h2, ?_⟩
  rw [h2]
  unfold add_point
  simp only [List.getLast?_concat]
  rw [if_pos ⟨by norm_num, by simpa [point_equals] using heq⟩]
  simp [List.dropLast_concat, Nat.or_assoc, Nat.or_self]

/-- C8 witness: a fresh path, the point `(0, 0)` with flag `1`, then the
coincident point `(1/1000, 0)` with flag `2`, at `dist_tol = 1/100`. -/
theorem add_point_dedup_idempotent_witness :
    add_point (add_point
        { points := [], verts := [],
          paths := [{ first := 0, count := 0, closed := false, winding := Winding.CCW,
                      nbevel := 0, convex := false, stroke := none, fill := none }] }
        0 0 1 (1 / 100)) (1 / 1000) 0 2 (1 / 100) =
      { points := [{ x := 0, y := 0, dx := 0, dy := 0, len := 0, dmx := 0, dmy := 0,
                     flags := 3 }],
        verts := [],
        paths := [{ first := 0, count := 1, closed := false, winding := Winding.CCW,
                    nbevel := 0, convex := false, stroke := none, fill := none }] } := by
  rw [(add_point_dedup_idempotent
    { points := [], verts := [],
      paths := [{ first := 0, count := 0, closed := false, winding := Winding.CCW,
                  nbevel := 0, convex := false, stroke := none, fill := none }] }
    { first := 0, count := 0, closed := false, winding := Winding.CCW,
      nbevel := 0, convex := false, stroke := none, fill := none }
    0 0 (1 / 1000) 0 1 2 (1 / 100) rfl rfl (by with_unfolding_all decide)).1]
  rfl

/-! ### C10: width clamping and alpha coverage emulation in Canvas::stroke -/

/-- C10: `Canvas::stroke` clamps the effective line width to `[0, 200]`;
when the clamped width is below the fringe width the geometry is expanded at
the fringe width instead (the recorded line width, of which half is passed to
`expand_stroke`, becomes the fringe) and both paint alpha components are
multiplied by `(clamped_width / fringe)^2`, while the canvas's stored state
is left unchanged. -/
theorem stroke_width_clamp_alpha (ctx : Ctx) (c : Canvas) :
    ((stroke ctx c).2.state = c.state) ∧
    ((stroke ctx c).1.line_width =
      if clamp (c.state.line_width * 1) 0 200 < c.fringe then c.fringe
      else clamp (c.state.line_width * 1) 0 200) ∧
    (clamp (c.state.line_width * 1) 0 200 < c.fringe →
      (stroke ctx c).1.state.inner_color.c3 =
          c.state.inner_color.c3 *
            ((clamp (c.state.line_width * 1) 0 200 / c.fringe) *
              (clamp (c.state.line_width * 1) 0 200 / c.fringe)) ∧
        (stroke ctx c).1.state.outer_color.c3 =
          c.state.outer_color.c3 *
            ((clamp (c.state.line_width * 1) 0 200 / c.fringe) *
              (clamp (c.state.line_width * 1) 0 200 / c.fringe))) := by
  have h0 : (0 : ℚ) ≤ clamp (c.state.line_width * 1) 0 200 :=
    clamp_lower_le (by norm_num)
  have halpha : clamp (c.state.line_width * 1) 0 200 < c.fringe →
      clamp (clamp (c.state.line_width * 1) 0 200 / c.fringe) 0 1 =
        clamp (c.state.line_width * 1) 0 200 / c.fringe := by
    intro hlt
    have hf : 0 < c.fringe := lt_of_le_of_lt h0 hlt
    have hnn : 0 ≤ clamp (c.state.line_width * 1) 0 200 / c.fringe :=
      div_nonneg h0 (le_of_lt hf)
    have hlt1 : clamp (c.state.line_width * 1) 0 200 / c.fringe < 1 :=
      (div_lt_one hf).mpr hlt
    exact clamp_id_of_bounds (not_lt.mpr hnn) (not_lt.mpr (le_of_lt hlt1))
  unfold stroke
  by_cases hlt : clamp (c.state.line_width * 1) 0 200 < c.fringe
  · simp only [if_pos hlt, halpha hlt]
    simp
  · simp only [if_neg hlt]
    exact ⟨trivial, trivial, fun h => absurd h hlt⟩

/-- C10 witness: a canvas with line width `1/2` and fringe `1`: the draw uses
width `1` (the fringe) and the paint alphas are scaled by `(1/2)^2`. -/
theorem stroke_width_clamp_alpha_witness :
    (stroke defaultCtx
        { commands := [],
          state := { line_width := 1 / 2, line_cap := LineCap.Butt,
                     line_join := LineJoin.Miter, miter_limit := 10,
                     inner_color := ⟨0, 0, 0, 1⟩, outer_color := ⟨0, 0, 0, 1 / 2⟩,
                     shape_anti_alias := true },
          cache := { points := [], verts := [], paths := [] },
          pixels_per_point := 1, tess_tol := 1 / 4, dist_tol := 1 / 100,
          fringe := 1 }).1.line_width = 1 ∧
    (stroke defaultCtx
        { commands := [],
          state := { line_width := 1 / 2, line_cap := LineCap.Butt,
                     line_join := LineJoin.Miter, miter_limit := 10,
                     inner_color := ⟨0, 0, 0, 1⟩, outer_color := ⟨0, 0, 0, 1 / 2⟩,
                     shape_anti_alias := true },
          cache := { points := [], verts := [], paths := [] },
          pixels_per_point := 1, tess_tol := 1 / 4, dist_tol := 1 / 100,
          fringe := 1 }).1.state.inner_color.c3 = 1 / 4 := by
  constructor
  · rw [(stroke_width_clamp_alpha defaultCtx _).2.1]
    with_unfolding_all decide
  · rw [((stroke_width_clamp_alpha defaultCtx _).2.2 (by with_unfolding_all decide)).1]
    with_unfolding_all decide

/-! ### C2: winding enforcement -/

theorem crossP_antisymm (p q : Point) : crossP p q = -crossP q p := by
  unfold crossP
  ring

theorem triangle_area2_eq_cross (a b c : Point) :
    triangle_area2 a.x a.y b.x b.y c.x c.y = crossP c b + crossP a c - crossP a b := by
  unfold triangle_area2 crossP
  ring

theorem polygon_area_fan_eq (a d : Point) (l : List Point) :
    polygon_area_fan a l =
      adjSum l + crossP a (l.getLast?.getD d) - crossP a (l.head?.getD d) := by
  induction l with
  | nil => simp [polygon_area_fan, adjSum]
  | cons b tl ih =>
    cases tl with
    | nil => simp [polygon_area_fan, adjSum]
    | cons c rest =>
      have hfan : polygon_area_fan a (b :: c :: rest) =
          triangle_area2 a.x a.y b.x b.y c.x c.y + polygon_area_fan a (c :: rest) := rfl
      have hadj : adjSum (b :: c :: rest) = crossP c b + adjSum (c :: rest) := rfl
      have hlast : (b :: c :: rest).getLast? = (c :: rest).getLast? :=
        List.getLast?_cons_cons
      rw [hfan, hadj, ih, hlast, triangle_area2_eq_cross]
      simp only [List.head?_cons, Option.getD_some]
      ring

theorem adjSum_append_singleton (l : List Point) (x : Point) :
    adjSum (l ++ [x]) =
      adjSum l + (match l.getLast? with | some z => crossP x z | none => 0) := by
  induction l with
  | nil => simp [adjSum]
  | cons b tl ih =>
    cases tl with
    | nil => simp [adjSum]
    | cons c rest =>
      have h1 : (b :: c :: rest) ++ [x] = b :: ((c :: rest) ++ [x]) := rfl
      have h2 : (c :: rest) ++ [x] = c :: (rest ++ [x]) := rfl
      rw [h1]
      show crossP c b + adjSum ((c :: rest) ++ [x]) = _
      rw [ih, List.getLast?_cons_cons]
      ring_nf
      rw [adjSum]
      ring

theorem adjSum_reverse (l : List Point) : adjSum l.reverse = -adjSum l := by
  induction l with
  | nil => simp [adjSum]
  | cons b tl ih =>
    rw [List.reverse_cons, adjSum_append_singleton, ih]
    cases tl with
    | nil => simp [adjSum]
    | cons c rest =>
      have h : (c :: rest).reverse.getLast? = some c := by
        rw [List.getLast?_reverse]
        rfl
      rw [h]
      show -adjSum (c :: rest) + crossP b c = -(crossP c b + adjSum (c :: rest))
      rw [crossP_antisymm b c]
      ring

theorem polygon_area_eq_cyc (l : List Point) : polygon_area l = cycSum l * (1 / 2) := by
  cases l with
  | nil =>
    simp only [polygon_area, cycSum, adjSum, crossP]
    simp
    ring
  | cons a rest =>
    cases rest with
    | nil =>
      simp only [polygon_area, polygon_area_fan, cycSum, adjSum, crossP]
      simp
      ring
    | cons c r =>
      show polygon_area_fan a (c :: r) * (1 / 2) = _
      rw [polygon_area_fan_eq a pt0]
      unfold cycSum
      rw [List.getLast?_cons_cons]
      show _ = (adjSum (a :: c :: r) + _) * (1 / 2)
      rw [adjSum]
      simp only [List.head?_cons, Option.getD_some]
      rw [crossP_antisymm c a]
      ring

theorem cycSum_reverse (l : List Point) : cycSum l.reverse = -cycSum l := by
  unfold cycSum
  rw [adjSum_reverse, List.head?_reverse, List.getLast?_reverse,
    crossP_antisymm (l.getLast?.getD pt0) (l.head?.getD pt0)]
  ring

theorem polygon_area_reverse (l : List Point) :
    polygon_area l.reverse = -polygon_area l := by
  rw [polygon_area_eq_cyc, polygon_area_eq_cyc, cycSum_reverse]
  ring

/-- C2: after the winding-enforcement step of the flatten post-pass, a
sub-path with more than two points has a signed polygon area whose sign
matches the requested winding (never negative for `CCW`, never positive for
`CW`), and the point order is reversed exactly when the computed area's sign
strictly disagrees with the request. -/
theorem enforce_winding_sign (w : Winding) (pts : List Point)
    (h : 2 < pts.length) :
    (w = Winding.CCW → ¬ polygon_area (enforce_winding w pts) < 0) ∧
    (w = Winding.CW → ¬ 0 < polygon_area (enforce_winding w pts)) ∧
    (should_reverse w pts = true ↔
      (w = Winding.CCW ∧ polygon_area pts < 0) ∨
        (w = Winding.CW ∧ 0 < polygon_area pts)) ∧
    enforce_winding w pts = if should_reverse w pts then pts.reverse else pts := by
  have henf : enforce_winding w pts = if should_reverse w pts then pts.reverse else pts := by
    unfold enforce_winding
    rw [if_pos h]
  refine ⟨?_, ?_, ?_, henf⟩
  · rintro rfl
    rw [henf]
    by_cases hneg : polygon_area pts < 0
    · rw [if_pos (by simp [should_reverse, hneg]), polygon_area_reverse]
      linarith
    · rw [if_neg (by simp [should_reverse, hneg])]
      exact hneg
  · rintro rfl
    rw [henf]
    by_cases hpos : 0 < polygon_area pts
    · rw [if_pos (by simp [should_reverse, hpos]), polygon_area_reverse]
      linarith
    · rw [if_neg (by simp [should_reverse, hpos])]
      exact hpos
  · cases w <;> simp [should_reverse]

/-- C2 witness: a unit square whose stored order has positive computed area,
with requested winding `CW`: the post-pass reverses it and the resulting area
is not positive. -/
theorem enforce_winding_sign_witness :
    ¬ 0 < polygon_area (enforce_winding Winding.CW
      [{ pt0 with x := 0, y := 0 }, { pt0 with x := 0, y := 1 },
       { pt0 with x := 1, y := 1 }, { pt0 with x := 1, y := 0 }]) :=
  (enforce_winding_sign Winding.CW
    [{ pt0 with x := 0, y := 0 }, { pt0 with x := 0, y := 1 },
     { pt0 with x := 1, y := 1 }, { pt0 with x := 1, y := 0 }]
    (by norm_num)).2.1 rfl

/-! ### C5: bezier tessellation depth cap and termination -/

theorem add_point_length_le (c : PathCache) (x y : ℚ) (flags : Nat) (tol : ℚ) :
    (add_point c x y flags tol).points.length ≤ c.points.length + 1 := by
  unfold add_point
  rcases hp : c.paths.getLast? with _ | path
  · simp
  · rcases hq : c.points.getLast? with _ | lp
    · simp
    · simp only []
      split
      · simp only [List.length_append, List.length_dropLast, List.length_cons,
          List.length_nil]
        omega
      · simp

theorem tesselate_bezier_go_len (fuel : Nat) :
    ∀ (c : PathCache) (x1 y1 x2 y2 x3 y3 x4 y4 : ℚ) (flags : Nat) (tt dt : ℚ),
      (tesselate_bezier_go c x1 y1 x2 y2 x3 y3 x4 y4 fuel flags tt dt).points.length ≤
        c.points.length + 2 ^ fuel := by
  induction fuel with
  | zero =>
    intro c x1 y1 x2 y2 x3 y3 x4 y4 flags tt dt
    simp [tesselate_bezier_go]
  | succ fuel ih =>
    intro c x1 y1 x2 y2 x3 y3 x4 y4 flags tt dt
    rw [tesselate_bezier_go]
    dsimp only
    split
    · have h1 := add_point_length_le c x4 y4 flags dt
      have h2 : (1 : Nat) ≤ 2 ^ (fuel + 1) := Nat.one_le_two_pow
      omega
    · have hpow : 2 ^ (fuel + 1) = 2 ^ fuel + 2 ^ fuel := by
        rw [pow_succ]
        omega
      refine le_trans (ih _ _ _ _ _ _ _ _ _ _ _ _)
        (le_trans (Nat.add_le_add_right (ih _ _ _ _ _ _ _ _ _ _ _ _) _) ?_)
      omega

/-- C5: `tesselate_bezier` terminates on every input (it is a total function
of the embedding, well-founded on `11 - level`): an invocation whose level
exceeds 10 returns the cache unchanged without subdividing or emitting, and
any invocation adds at most `2 ^ (11 - level)` points, so the work is bounded
regardless of numerical degeneracy. -/
theorem tesselate_bezier_depth_cap (c : PathCache) (x1 y1 x2 y2 x3 y3 x4 y4 : ℚ)
    (level flags : Nat) (tt dt : ℚ) :
    (10 < level → tesselate_bezier c x1 y1 x2 y2 x3 y3 x4 y4 level flags tt dt = c) ∧
      (tesselate_bezier c x1 y1 x2 y2 x3 y3 x4 y4 level flags tt dt).points.length ≤
        c.points.length + 2 ^ (11 - level) := by
  constructor
  · intro hl
    unfold tesselate_bezier
    have h0 : 11 - level = 0 := by omega
    rw [h0]
    rfl
  · calc (tesselate_bezier c x1 y1 x2 y2 x3 y3 x4 y4 level flags tt dt).points.length
        ≤ c.points.length + 2 ^ (11 - level) :=
          tesselate_bezier_go_len (11 - level) c x1 y1 x2 y2 x3 y3 x4 y4 flags tt dt

/-- C5 witness: an invocation at level 11 returns the cache unchanged. -/
theorem tesselate_bezier_depth_cap_witness :
    tesselate_bezier { points := [], verts := [], paths := [] }
        0 0 1 5 2 (-5) 3 0 11 1 (1 / 4) (1 / 100) =
      { points := [], verts := [], paths := [] } :=
  (tesselate_bezier_depth_cap { points := [], verts := [], paths := [] }
    0 0 1 5 2 (-5) 3 0 11 1 (1 / 4) (1 / 100)).1 (by norm_num)

/-! ### C4: the convex flag of calculate_joins -/

theorem rotate_right_length (l : List Point) : (rotate_right l).length = l.length := by
  unfold rotate_right
  simp only [List.length_append, List.length_drop, List.length_take]
  omega

theorem seg_length (pts : List Point) (first count : Nat)
    (h : first + count ≤ pts.length) : (seg pts first count).length = count := by
  unfold seg
  simp only [List.length_take, List.length_drop]
  omega

theorem seg_append (A X B : List Point) (first count : Nat)
    (hA : A.length = first) (hX : X.length = count) :
    seg (A ++ X ++ B) first count = X := by
  unfold seg
  rw [List.append_assoc, List.drop_left' hA, List.take_left' hX]

theorem seg_update_seg (pts : List Point) (first count : Nat)
    (f : List Point → List Point) (h : first + count ≤ pts.length)
    (hf : (f (seg pts first count)).length = count) :
    seg (update_seg pts first count f) first count = f (seg pts first count) := by
  unfold update_seg
  refine seg_append _ _ _ first count ?_ hf
  simp only [List.length_take]
  omega

theorem joined_seg_length (iw : ℚ) (lj : LineJoin) (ml : ℚ) (s : List Point) :
    (joined_seg iw lj ml s).length = s.length := by
  unfold joined_seg
  rw [List.length_zipWith, rotate_right_length]
  omega

/-- C4 (amended): after `calculate_joins` on a cache holding a single
sub-path (whose segment lies inside the point buffer), the sub-path's convex
flag is true iff every vertex of its updated segment was classified as a left
turn.  (With several sub-paths the left-turn counter accumulates across
sub-paths instead of being reset, so the equivalence is not per-sub-path;
see the counterexample.) -/
theorem calculate_joins_convex_single (c : PathCache) (p : PathBuilder)
    (w ml : ℚ) (lj : LineJoin) (hpaths : c.paths = [p])
    (hwf : p.first + p.count ≤ c.points.length) :
    ∀ p' ∈ (calculate_joins c w lj ml).paths,
      (p'.convex = true ↔
        ∀ pt ∈ seg (calculate_joins c w lj ml).points p.first p.count,
          left_flagged pt = true) := by
  intro p' hp'
  unfold calculate_joins at hp' ⊢
  rw [hpaths] at hp' ⊢
  simp only [calculate_joins_go] at hp' ⊢
  set iw := if 0 < w then 1 / w else 0 with hiw
  set s := seg c.points p.first p.count with hs
  set s' := (rotate_right s).zipWith (join_point iw lj ml) s with hs'
  have hlen : s'.length = p.count := by
    rw [hs']
    have := joined_seg_length iw lj ml s
    unfold joined_seg at this
    rw [this, hs, seg_length c.points p.first p.count hwf]
  have hseg : seg (update_seg c.points p.first p.count (fun _ => s')) p.first p.count = s' :=
    seg_update_seg c.points p.first p.count (fun _ => s') hwf hlen
  simp only [List.mem_singleton] at hp'
  subst hp'
  simp only [hseg]
  constructor
  · intro hcvx pt hpt
    have hcount : s'.countP left_flagged = p.count := by
      have := of_decide_eq_true hcvx
      omega
    have hall := List.countP_eq_length.mp (by rw [hcount, hlen])
    exact hall pt hpt
  · intro hall
    have hcount : s'.countP left_flagged = s'.length :=
      List.countP_eq_length.mpr hall
    rw [hlen] at hcount
    simpa using hcount

/-- C4 counterexample: on a cache with two left-turning unit squares, every
vertex of both sub-paths is classified as a left turn by `calculate_joins`,
yet the second sub-path's convex flag is `false` (the left-turn counter is
not reset between sub-paths), refuting per-sub-path independence of the
claimed equivalence. -/
theorem calculate_joins_convex_not_independent :
    (∀ pt ∈ (calculate_joins two_squares_cache 1 LineJoin.Miter 10).points,
      left_flagged pt = true) ∧
      (calculate_joins two_squares_cache 1 LineJoin.Miter 10).paths.map
          PathBuilder.convex = [true, false] := by
  constructor
  · with_unfolding_all decide
  · with_unfolding_all decide

/-- C4 witness: a cache with a single left-turning unit square gets
`convex = true`. -/
theorem calculate_joins_convex_single_witness :
    ((calculate_joins
        { points := unit_square_points 0, verts := [], paths := [square_path 0] }
        1 LineJoin.Miter 10).paths.headD (square_path 0)).convex = true := by
  have hm : ((calculate_joins
      { points := unit_square_points 0, verts := [], paths := [square_path 0] }
      1 LineJoin.Miter 10).paths.headD (square_path 0)) ∈ (calculate_joins
        { points := unit_square_points 0, verts := [], paths := [square_path 0] }
        1 LineJoin.Miter 10).paths := by
    with_unfolding_all decide
  refine (calculate_joins_convex_single
    { points := unit_square_points 0, verts := [], paths := [square_path 0] }
    (square_path 0) 1 10 LineJoin.Miter rfl (by with_unfolding_all decide)
    _ hm).mpr ?_
  with_unfolding_all decide

/-! ### C7: butt-cap geometry of a single straight segment -/

set_option maxRecDepth 200000 in
/-- C7 (amended): stroking the single straight open segment from `(0,0)` to
`(10,0)` with line width 2, Butt caps and anti-aliasing disabled emits
exactly 8 vertices, the start-cap vertices at `(0, ±1)` and the end-cap
vertices at `(10, ±1)` — but, anti-aliasing being disabled, every vertex
carries the collapsed cross-stroke coordinate `u = 1/2`, not `u ∈ {0, 1}`. -/
theorem stroke_butt_cap_geometry :
    (stroke defaultCtx segment_canvas).2.cache.verts =
      [⟨0, -1, 1 / 2, 0⟩, ⟨0, 1, 1 / 2, 0⟩, ⟨0, -1, 1 / 2, 1⟩, ⟨0, 1, 1 / 2, 1⟩,
       ⟨10, -1, 1 / 2, 1⟩, ⟨10, 1, 1 / 2, 1⟩, ⟨10, -1, 1 / 2, 0⟩, ⟨10, 1, 1 / 2, 0⟩] ∧
      (stroke defaultCtx segment_canvas).1.ok = true := by
  constructor
  · with_unfolding_all decide
  · with_unfolding_all decide

set_option maxRecDepth 200000 in
/-- C7 counterexample to the claim as stated: the 8 emitted vertices do not
all carry `u ∈ {0, 1}` (they all carry `u = 1/2`, anti-aliasing being
disabled). -/
theorem stroke_butt_cap_u_not_binary :
    ¬ ((stroke defaultCtx segment_canvas).2.cache.verts.length = 8 ∧
        ∀ v ∈ (stroke defaultCtx segment_canvas).2.cache.verts, v.u = 0 ∨ v.u = 1) := by
  with_unfolding_all decide

/-! ### C3: sub-paths with 0 or 1 points are not skipped but panic -/

set_option maxRecDepth 200000 in
/-- C3: a sub-path consisting of a single `MoveTo` is reduced to 0 points
(closed) by the flatten post-pass without error, but the stroke expander then
indexes the empty point slice (`points[path.count - 1]` with `count = 0`, a
`usize` underflow feeding an out-of-range index) and panics instead of
skipping the sub-path: the pipeline's success flag is `false`. -/
theorem expand_stroke_empty_subpath_panics :
    (flatten_paths defaultCtx { points := [], verts := [], paths := [] }
        [Command.MoveTo 0 0] (1 / 4) (1 / 100)).2 = true ∧
      (flatten_paths defaultCtx { points := [], verts := [], paths := [] }
          [Command.MoveTo 0 0] (1 / 4) (1 / 100)).1.paths.map
          (fun p => (p.count, p.closed)) = [(0, true)] ∧
      (stroke defaultCtx single_move_canvas).1.ok = false := by
  refine ⟨?_, ?_, ?_⟩
  · with_unfolding_all decide
  · with_unfolding_all decide
  · with_unfolding_all decide

/-! ### C6: round-join arc step count -/

theorem add_vert_length (vs : List Vertex) (x y u v : ℚ) :
    (add_vert vs x y u v).length = vs.length + 1 := by
  simp [add_vert]

theorem foldl_length_two {β : Type} (f : List Vertex → β → List Vertex)
    (hf : ∀ vs b, (f vs b).length = vs.length + 2) :
    ∀ (l : List β) (vs : List Vertex), (l.foldl f vs).length = vs.length + 2 * l.length := by
  intro l
  induction l with
  | nil => simp
  | cons b tl ih =>
    intro vs
    rw [List.foldl_cons, ih, hf]
    simp only [List.length_cons]
    ring

theorem round_join_fan_left_length (ctx : Ctx) (p1x p1y rw ru a0 a1 : ℚ) (n : Nat)
    (vs : List Vertex) :
    (round_join_fan_left ctx p1x p1y rw ru a0 a1 n vs).length = vs.length + 2 * n := by
  unfold round_join_fan_left
  rw [foldl_length_two _ (fun vs i => by simp [add_vert]) (List.range n) vs,
    List.length_range]

theorem round_join_fan_right_length (ctx : Ctx) (p1x p1y lw lu a0 a1 : ℚ) (n : Nat)
    (vs : List Vertex) :
    (round_join_fan_right ctx p1x p1y lw lu a0 a1 n vs).length = vs.length + 2 * n := by
  unfold round_join_fan_right
  rw [foldl_length_two _ (fun vs i => by simp [add_vert]) (List.range n) vs,
    List.length_range]

theorem clamp_self_bounds (a n : Nat) : clamp a n n = n := by
  unfold clamp
  split
  · rfl
  · split
    · rfl
    · omega

theorem ceil_cast_div_two (x : ℚ) : ⌈((⌈x⌉ : ℤ) : ℚ) / 2⌉ = ⌈x / 2⌉ := by
  apply le_antisymm
  · rw [Int.ceil_le]
    have h1 : x / 2 ≤ (⌈x / 2⌉ : ℚ) := Int.le_ceil _
    have h2 : x ≤ ((2 * ⌈x / 2⌉ : ℤ) : ℚ) := by
      push_cast
      linarith
    have h3 : ⌈x⌉ ≤ 2 * ⌈x / 2⌉ := Int.ceil_le.mpr h2
    have h4 : ((⌈x⌉ : ℤ) : ℚ) ≤ ((2 * ⌈x / 2⌉ : ℤ) : ℚ) := by
      exact_mod_cast h3
    push_cast at h4 ⊢
    linarith
  · rw [Int.ceil_le]
    have h1 : ((⌈x⌉ : ℤ) : ℚ) / 2 ≤ (⌈((⌈x⌉ : ℤ) : ℚ) / 2⌉ : ℚ) := Int.le_ceil _
    have h2 : x ≤ ((⌈x⌉ : ℤ) : ℚ) := Int.le_ceil _
    linarith

/-- C6: the number of arc steps a round join emits for the sweep angle θ the
source computes equals `clamp(ceil((θ/π)·ncap), 2, ncap)` — the vertex list
grows by exactly `4 + 2·steps` — where `ncap = curve_divs(w, π, tess_tol)`
= `max(2, ceil(π/(2·acos(w/(w+tess_tol)))))`; and in particular for a 90°
sweep (`θ = π/2`, e.g. the 90° corner with `w = 5`, `tess_tol = 1/4`) the
step count equals `clamp(ceil((π/2)/(2·acos(w/(w+tess_tol)))), 2, ncap)`. -/
theorem round_join_arc_count (ctx : Ctx) (p0 p1 : Point) (w tol lu ru aa : ℚ)
    (verts : List Vertex) (ncap : Nat)
    (hncap : ncap = curve_divs ctx w ctx.piQ tol)
    (hpi : 0 < ctx.piQ) (hinv : ctx.invPiQ * ctx.piQ = 1) :
    (round_join ctx verts p0 p1 w w lu ru ncap aa).length =
        verts.length + 4 + 2 * spec_arc_steps ctx (round_join_sweep ctx p0 p1) ncap ∧
      (round_join_sweep ctx p0 p1 = ctx.piQ / 2 →
        spec_arc_steps ctx (round_join_sweep ctx p0 p1) ncap =
          clamp (ceil_usize (ctx.piQ / 2 / (2 * ctx.acosQ (w / (w + tol))))) 2 ncap) := by
  have hpine : ctx.piQ ≠ 0 := ne_of_gt hpi
  have hinvpi : ctx.invPiQ = 1 / ctx.piQ := by
    field_simp
    linarith [hinv]
  constructor
  · unfold round_join round_join_sweep
    by_cases hleft : p1.flags &&& POINT_LEFT ≠ 0
    · rw [if_pos hleft, if_pos hleft]
      rcases hcb : choose_bevel (p1.flags &&& POINT_INNER_BEVEL) p0 p1 w with
        ⟨lx0, ly0, lx1, ly1⟩
      simp only [hcb]
      have harg : ∀ X : ℚ, X * ctx.invPiQ = X / ctx.piQ := by
        intro X
        rw [hinvpi]
        ring
      rw [harg]
      simp only [round_join_fan_left_length, add_vert_length, spec_arc_steps]
      ring
    · rw [if_neg hleft, if_neg hleft]
      rcases hcb : choose_bevel (p1.flags &&& POINT_INNER_BEVEL) p0 p1 (-w) with
        ⟨rx0, ry0, rx1, ry1⟩
      simp only [hcb]
      simp only [round_join_fan_right_length, add_vert_length, spec_arc_steps]
      ring
  · intro hsweep
    rw [hsweep]
    unfold spec_arc_steps
    have h12 : ctx.piQ / 2 / ctx.piQ * (ncap : ℚ) = (ncap : ℚ) / 2 := by
      field_simp
      ring
    rw [h12]
    set A := ctx.acosQ (w / (w + tol)) with hA
    have hx : ctx.piQ / 2 / (2 * A) = ctx.piQ / (A * 2) / 2 := by
      rw [div_div, div_div]
      ring_nf
    rw [hx]
    set x := ctx.piQ / (A * 2) with hxdef
    have hncap' : ncap = max (ceil_usize x) 2 := by
      rw [hncap]
      unfold curve_divs
      rfl
    by_cases hM : (⌈x⌉ : ℤ) ≤ 2
    · have h2 : ncap = 2 := by
        rw [hncap']
        unfold ceil_usize
        omega
      rw [h2, clamp_self_bounds, clamp_self_bounds]
    · have hMpos : (0 : ℤ) < ⌈x⌉ := by omega
      have h2 : ncap = (⌈x⌉ : ℤ).toNat := by
        rw [hncap']
        unfold ceil_usize
        omega
      have hcast : ((ncap : ℚ)) = ((⌈x⌉ : ℤ) : ℚ) := by
        rw [h2]
        exact_mod_cast congrArg (fun z : ℤ => (z : ℚ)) (Int.toNat_of_nonneg (le_of_lt hMpos))
      rw [hcast]
      unfold ceil_usize
      rw [ceil_cast_div_two]

/-- C6 witness: the 90° left corner at `w = 5`, `tess_tol = 1/4`. -/
theorem round_join_arc_count_witness :
    (round_join ctx6 [] corner_p0 corner_p1 5 5 0 1
          (curve_divs ctx6 5 ctx6.piQ (1 / 4)) 0).length =
        ([] : List Vertex).length + 4 + 2 *
          spec_arc_steps ctx6 (round_join_sweep ctx6 corner_p0 corner_p1)
            (curve_divs ctx6 5 ctx6.piQ (1 / 4)) ∧
      spec_arc_steps ctx6 (round_join_sweep ctx6 corner_p0 corner_p1)
          (curve_divs ctx6 5 ctx6.piQ (1 / 4)) =
        clamp (ceil_usize (ctx6.piQ / 2 / (2 * ctx6.acosQ (5 / (5 + 1 / 4))))) 2
          (curve_divs ctx6 5 ctx6.piQ (1 / 4)) := by
  have h := round_join_arc_count ctx6 corner_p0 corner_p1 5 (1 / 4) 0 1 0 []
    (curve_divs ctx6 5 ctx6.piQ (1 / 4)) rfl
    (by with_unfolding_all decide) (by with_unfolding_all decide)
  exact ⟨h.1, h.2 (by with_unfolding_all decide)⟩

/-! ### C1: the vertex-count reservation is never exceeded -/

theorem clamp_le_of_le {a lo hi : Nat} (h : lo ≤ hi) : clamp a lo hi ≤ hi := by
  unfold clamp
  split
  · exact h
  · split
    · exact le_refl hi
    · omega

theorem curve_divs_two_le (ctx : Ctx) (r arc tol : ℚ) :
    2 ≤ curve_divs ctx r arc tol := by
  unfold curve_divs
  exact Nat.le_max_right _ 2

theorem bevel_join_length_le (verts : List Vertex) (p0 p1 : Point)
    (lw rw lu ru aa : ℚ) :
    (bevel_join verts p0 p1 lw rw lu ru aa).length ≤ verts.length + 10 := by
  unfold bevel_join
  by_cases hleft : p1.flags &&& POINT_LEFT ≠ 0
  · rw [if_pos hleft]
    rcases hcb : choose_bevel (p1.flags &&& POINT_INNER_BEVEL) p0 p1 lw with
      ⟨lx0, ly0, lx1, ly1⟩
    simp only [hcb]
    by_cases hb : p1.flags &&& POINT_BEVEL ≠ 0
    · rw [if_pos hb]
      simp only [add_vert_length]
      omega
    · rw [if_neg hb]
      simp only [add_vert_length]
      omega
  · rw [if_neg hleft]
    rcases hcb : choose_bevel (p1.flags &&& POINT_INNER_BEVEL) p0 p1 (-rw) with
      ⟨rx0, ry0, rx1, ry1⟩
    simp only [hcb]
    by_cases hb : p1.flags &&& POINT_BEVEL ≠ 0
    · rw [if_pos hb]
      simp only [add_vert_length]
      omega
    · rw [if_neg hb]
      simp only [add_vert_length]
      omega

theorem round_join_length_le (ctx : Ctx) (verts : List Vertex) (p0 p1 : Point)
    (lw rw lu ru : ℚ) (ncap : Nat) (aa : ℚ) (h2 : 2 ≤ ncap) :
    (round_join ctx verts p0 p1 lw rw lu ru ncap aa).length ≤
      verts.length + (2 * ncap + 4) := by
  unfold round_join
  by_cases hleft : p1.flags &&& POINT_LEFT ≠ 0
  · rw [if_pos hleft]
    rcases hcb : choose_bevel (p1.flags &&& POINT_INNER_BEVEL) p0 p1 lw with
      ⟨lx0, ly0, lx1, ly1⟩
    simp only [hcb]
    simp only [add_vert_length, round_join_fan_left_length]
    have := clamp_le_of_le (a := ceil_usize ((ctx.atan2Q (-(-p0.dx)) (-p0.dy) -
      (if ctx.atan2Q (-(-p0.dx)) (-p0.dy) < ctx.atan2Q (-(-p1.dx)) (-p1.dy) then
        ctx.atan2Q (-(-p1.dx)) (-p1.dy) - 2 * ctx.piQ
      else ctx.atan2Q (-(-p1.dx)) (-p1.dy))) * ctx.invPiQ * (ncap : ℚ))) h2
    omega
  · rw [if_neg hleft]
    rcases hcb : choose_bevel (p1.flags &&& POINT_INNER_BEVEL) p0 p1 (-rw) with
      ⟨rx0, ry0, rx1, ry1⟩
    simp only [hcb]
    simp only [add_vert_length, round_join_fan_right_length]
    have := clamp_le_of_le (a := ceil_usize (((if ctx.atan2Q (-p1.dx) p1.dy <
        ctx.atan2Q (-p0.dx) p0.dy then ctx.atan2Q (-p1.dx) p1.dy + 2 * ctx.piQ
      else ctx.atan2Q (-p1.dx) p1.dy) - ctx.atan2Q (-p0.dx) p0.dy) / ctx.piQ *
        (ncap : ℚ))) h2
    omega

theorem butt_cap_start_length (verts : List Vertex) (p : Point)
    (dx dy w d aa u0 u1 : ℚ) :
    (butt_cap_start verts p dx dy w d aa u0 u1).length = verts.length + 4 := by
  unfold butt_cap_start
  simp only [add_vert_length]

theorem butt_cap_end_length (verts : List Vertex) (p : Point)
    (dx dy w d aa u0 u1 : ℚ) :
    (butt_cap_end verts p dx dy w d aa u0 u1).length = verts.length + 4 := by
  unfold butt_cap_end
  simp only [add_vert_length]

theorem round_cap_start_length (ctx : Ctx) (verts : List Vertex) (p : Point)
    (dx dy w : ℚ) (ncap : Nat) (aa u0 u1 : ℚ) :
    (round_cap_start ctx verts p dx dy w ncap aa u0 u1).length =
      verts.length + (2 * ncap + 2) := by
  unfold round_cap_start
  simp only [add_vert_length]
  rw [foldl_length_two _ (fun vs i => by simp [add_vert]) (List.range ncap) verts,
    List.length_range]
  omega

theorem round_cap_end_length (ctx : Ctx) (verts : List Vertex) (p : Point)
    (dx dy w : ℚ) (ncap : Nat) (aa u0 u1 : ℚ) :
    (round_cap_end ctx verts p dx dy w ncap aa u0 u1).length =
      verts.length + (2 * ncap + 2) := by
  unfold round_cap_end
  rw [foldl_length_two _ (fun vs i => by simp [add_vert]) (List.range ncap)]
  simp only [add_vert_length, List.length_range]
  omega

theorem emit_loop_length_le (ctx : Ctx) (pts : List Point) (lj : LineJoin)
    (w : ℚ) (ncap : Nat) (aa u0 u1 : ℚ) (h2 : 2 ≤ ncap) :
    ∀ (iters idx : Nat) (p0 p1 : Point) (vs : List Vertex),
      pts.get? idx = some p1 →
      (emit_loop ctx pts lj w ncap aa u0 u1 idx iters p0 p1 vs).1.length ≤
        vs.length + 2 * iters +
          (if lj = LineJoin.Round then 2 * ncap + 2 else 8) *
            ((pts.drop idx).take iters).countP bevel_flagged := by
  intro iters
  induction iters with
  | zero =>
    intro idx p0 p1 vs hget
    simp [emit_loop]
  | succ iters ih =>
    intro idx p0 p1 vs hget
    have hlt : idx < pts.length := by
      rcases List.get?_eq_some.mp hget with ⟨h, _⟩
      exact h
    have hval : pts[idx] = p1 := by
      rcases List.get?_eq_some.mp hget with ⟨h, hv⟩
      simpa [List.get_eq_getElem] using hv
    have hdrop : pts.drop idx = p1 :: pts.drop (idx + 1) := by
      rw [List.drop_eq_getElem_cons hlt, hval]
    have hcount : ((pts.drop idx).take (iters + 1)).countP bevel_flagged =
        ((pts.drop (idx + 1)).take iters).countP bevel_flagged +
          (if bevel_flagged p1 then 1 else 0) := by
      rw [hdrop, List.take_succ_cons, List.countP_cons]
    rw [emit_loop, hcount]
    set K : Nat := if lj = LineJoin.Round then 2 * ncap + 2 else 8 with hK
    set R : Nat := ((pts.drop (idx + 1)).take iters).countP bevel_flagged with hR
    set verts1 : List Vertex :=
      (if bevel_flagged p1 then
        if lj = LineJoin.Round then round_join ctx vs p0 p1 w w u0 u1 ncap aa
        else bevel_join vs p0 p1 w w u0 u1 aa
      else
        add_vert (add_vert vs (p1.x + p1.dmx * w) (p1.y + p1.dmy * w) u0 1)
          (p1.x - p1.dmx * w) (p1.y - p1.dmy * w) u1 1) with hverts1
    have hstep : verts1.length ≤ vs.length + 2 + (if bevel_flagged p1 then K else 0) := by
      rw [hverts1]
      by_cases hb : bevel_flagged p1
      · rw [if_pos hb, if_pos hb]
        by_cases hr : lj = LineJoin.Round
        · rw [if_pos hr, hK, if_pos hr]
          have := round_join_length_le ctx vs p0 p1 w w u0 u1 ncap aa h2
          omega
        · rw [if_neg hr, hK, if_neg hr]
          have := bevel_join_length_le vs p0 p1 w w u0 u1 aa
          omega
      · rw [if_neg hb, if_neg hb]
        simp only [add_vert_length]
        omega
    rcases hnext : pts.get? (idx + 1) with _ | p1'
    · simp only [hnext]
      by_cases hb : bevel_flagged p1
      · rw [if_pos hb] at hstep ⊢
        have hKR : K * (R + 1) = K * R + K := by ring
        rw [hKR]
        set A : Nat := K * R with hA
        omega
      · rw [if_neg hb] at hstep ⊢
        have hKR : K * (R + 0) = K * R := by ring
        rw [hKR]
        set A : Nat := K * R with hA
        omega
    · simp only [hnext]
      have hrec := ih (idx + 1) p1 p1' verts1 hnext
      rw [← hR] at hrec
      by_cases hb : bevel_flagged p1
      · rw [if_pos hb] at hstep ⊢
        have hKR : K * (R + 1) = K * R + K := by ring
        rw [hKR]
        set A : Nat := K * R with hA
        omega
      · rw [if_neg hb] at hstep ⊢
        have hKR : K * (R + 0) = K * R := by ring
        rw [hKR]
        set A : Nat := K * R with hA
        omega

theorem reservation_base_bound (lj : LineJoin) (ncap cnt nbevel count iters slack : Nat)
    (h2 : 2 ≤ ncap) (hcnt : cnt ≤ nbevel) (hit : iters ≤ count) (hsl : slack ≤ 2) :
    2 * iters + (if lj = LineJoin.Round then 2 * ncap + 2 else 8) * cnt + slack ≤
      (if lj = LineJoin.Round then (count + nbevel * (ncap + 2) + 1) * 2
       else (count + nbevel * 5 + 1) * 2) := by
  by_cases hr : lj = LineJoin.Round
  · rw [if_pos hr, if_pos hr]
    have h1 : (2 * ncap + 2) * cnt ≤ 2 * (nbevel * (ncap + 2)) := by
      calc (2 * ncap + 2) * cnt ≤ (2 * ncap + 4) * nbevel :=
            Nat.mul_le_mul (by omega) hcnt
        _ = 2 * (nbevel * (ncap + 2)) := by ring
    have h2' : (count + nbevel * (ncap + 2) + 1) * 2 =
        2 * count + 2 * (nbevel * (ncap + 2)) + 2 := by ring
    set B := nbevel * (ncap + 2) with hB
    omega
  · rw [if_neg hr, if_neg hr]
    have h1 : 8 * cnt ≤ 2 * (nbevel * 5) := by
      calc 8 * cnt ≤ 10 * nbevel := Nat.mul_le_mul (by omega) hcnt
        _ = 2 * (nbevel * 5) := by ring
    have h2' : (count + nbevel * 5 + 1) * 2 = 2 * count + 2 * (nbevel * 5) + 2 := by ring
    set B := nbevel * 5 with hB
    omega

theorem expand_one_length_le (ctx : Ctx) (pts : List Point) (path : PathBuilder)
    (cap : LineCap) (lj : LineJoin) (w : ℚ) (ncap : Nat) (aa u0 u1 : ℚ)
    (vs : List Vertex) (h2 : 2 ≤ ncap)
    (hnb : (seg pts path.first path.count).countP bevel_flagged ≤ path.nbevel) :
    (expand_one ctx pts path cap lj w ncap aa u0 u1 vs).2.1.length ≤
      vs.length + path_cverts path cap lj ncap := by
  have hseglen : (seg pts path.first path.count).length ≤ path.count := by
    unfold seg
    simp only [List.length_take]
    omega
  set K : Nat := if lj = LineJoin.Round then 2 * ncap + 2 else 8 with hK
  set base : Nat :=
    if lj = LineJoin.Round then (path.count + path.nbevel * (ncap + 2) + 1) * 2
    else (path.count + path.nbevel * 5 + 1) * 2 with hbase
  have hcap : path_cverts path cap lj ncap =
      if !path.closed then
        (if cap = LineCap.Round then base + (ncap * 2 + 2) * 2 else base + 12)
      else base := by
    unfold path_cverts
    rfl
  unfold expand_one
  dsimp only
  by_cases hc : path.closed
  · rw [if_pos hc]
    rw [hcap]
    simp only [hc, Bool.not_true, Bool.false_eq_true, if_false]
    rcases h0 : (seg pts path.first path.count).get? (path.count - 1) with _ | p0
    · simp only [h0]
      have : (0 : Nat) ≤ base := Nat.zero_le base
      omega
    · rcases h1 : (seg pts path.first path.count).get? 0 with _ | p1
      · simp only [h0, h1]
        omega
      · simp only [h0, h1]
        rcases hE : emit_loop ctx (seg pts path.first path.count) lj w ncap aa u0 u1
            0 path.count p0 p1 vs with ⟨vs1, ok, q0, q1⟩
        have hloop := emit_loop_length_le ctx (seg pts path.first path.count) lj w ncap
          aa u0 u1 h2 path.count 0 p0 p1 vs h1
        rw [hE] at hloop
        rw [← hK] at hloop
        simp only [List.drop_zero, List.take_of_length_le hseglen] at hloop
        have hfull : 2 * path.count +
            K * (seg pts path.first path.count).countP bevel_flagged + 2 ≤ base := by
          rw [hK, hbase]
          exact reservation_base_bound lj ncap _ path.nbevel path.count path.count 2
            h2 hnb (le_refl _) (le_refl _)
        simp only [hE]
        cases ok with
        | false =>
          simp only [Bool.false_eq_true, if_false]
          omega
        | true =>
          simp only [if_true]
          rcases hv0 : vs1.get? 0 with _ | v0
          · simp only [hv0]
            omega
          · rcases hv1 : vs1.get? 1 with _ | v1
            · simp only [hv0, hv1]
              omega
            · simp only [hv0, hv1]
              simp only [add_vert_length]
              omega
  · rw [if_neg hc]
    rw [hcap]
    simp only [hc, Bool.not_false, if_true]
    rcases h0 : (seg pts path.first path.count).get? 0 with _ | p0
    · simp only [h0]
      split <;> omega
    · rcases h1 : (seg pts path.first path.count).get? 1 with _ | p1
      · simp only [h0, h1]
        split <;> omega
      · simp only [h0, h1]
        rcases hN : normalize ctx (p1.x - p0.x) (p1.y - p0.y) with ⟨dx, dy, len⟩
        simp only [hN]
        have hsub : List.Sublist
            (((seg pts path.first path.count).drop 1).take (path.count - 2))
            (seg pts path.first path.count) :=
          (List.take_sublist _ _).trans (List.drop_sublist _ _)
        have hcnt : (((seg pts path.first path.count).drop 1).take
            (path.count - 2)).countP bevel_flagged ≤ path.nbevel :=
          le_trans (List.Sublist.countP_le bevel_flagged hsub) hnb
        have hfull : 2 * (path.count - 2) +
            K * (((seg pts path.first path.count).drop 1).take
              (path.count - 2)).countP bevel_flagged + 0 ≤ base := by
          rw [hK, hbase]
          exact reservation_base_bound lj ncap _ path.nbevel path.count (path.count - 2)
            0 h2 hcnt (by omega) (by omega)
        cases cap with
        | Butt =>
          dsimp only
          rcases hE : emit_loop ctx (seg pts path.first path.count) lj w ncap aa u0 u1
              1 (path.count - 2) p0 p1
              (butt_cap_start vs p0 dx dy w (-aa * (1 / 2)) aa u0 u1) with
            ⟨vs1, ok, q0, q1⟩
          have hloop := emit_loop_length_le ctx (seg pts path.first path.count) lj w
            ncap aa u0 u1 h2 (path.count - 2) 1 p0 p1
            (butt_cap_start vs p0 dx dy w (-aa * (1 / 2)) aa u0 u1) h1
          rw [hE] at hloop
          dsimp only at hloop
          rw [← hK] at hloop
          rw [butt_cap_start_length] at hloop
          simp only [hE]
          have hcv : (if LineCap.Butt = LineCap.Round then base + (ncap * 2 + 2) * 2
              else base + 12) = base + 12 := if_neg (by decide)
          rw [hcv]
          cases ok with
          | false =>
            simp only [Bool.false_eq_true, if_false]
            omega
          | true =>
            simp only [if_true]
            rcases hN2 : normalize ctx (q1.x - q0.x) (q1.y - q0.y) with ⟨dx2, dy2, len2⟩
            simp only [hN2]
            rw [butt_cap_end_length]
            omega
        | Square =>
          dsimp only
          rcases hE : emit_loop ctx (seg pts path.first path.count) lj w ncap aa u0 u1
              1 (path.count - 2) p0 p1
              (butt_cap_start vs p0 dx dy w (w - aa) aa u0 u1) with
            ⟨vs1, ok, q0, q1⟩
          have hloop := emit_loop_length_le ctx (seg pts path.first path.count) lj w
            ncap aa u0 u1 h2 (path.count - 2) 1 p0 p1
            (butt_cap_start vs p0 dx dy w (w - aa) aa u0 u1) h1
          rw [hE] at hloop
          dsimp only at hloop
          rw [← hK] at hloop
          rw [butt_cap_start_length] at hloop
          simp only [hE]
          have hcv : (if LineCap.Square = LineCap.Round then base + (ncap * 2 + 2) * 2
              else base + 12) = base + 12 := if_neg (by decide)
          rw [hcv]
          cases ok with
          | false =>
            simp only [Bool.false_eq_true, if_false]
            omega
          | true =>
            simp only [if_true]
            rcases hN2 : normalize ctx (q1.x - q0.x) (q1.y - q0.y) with ⟨dx2, dy2, len2⟩
            simp only [hN2]
            rw [butt_cap_end_length]
            omega
        | Round =>
          dsimp only
          rcases hE : emit_loop ctx (seg pts path.first path.count) lj w ncap aa u0 u1
              1 (path.count - 2) p0 p1
              (round_cap_start ctx vs p0 dx dy w ncap aa u0 u1) with
            ⟨vs1, ok, q0, q1⟩
          have hloop := emit_loop_length_le ctx (seg pts path.first path.count) lj w
            ncap aa u0 u1 h2 (path.count - 2) 1 p0 p1
            (round_cap_start ctx vs p0 dx dy w ncap aa u0 u1) h1
          rw [hE] at hloop
          dsimp only at hloop
          rw [← hK] at hloop
          rw [round_cap_start_length] at hloop
          simp only [hE]
          simp only [reduceIte]
          cases ok with
          | false =>
            simp only [Bool.false_eq_true, if_false]
            omega
          | true =>
            simp only [if_true]
            rcases hN2 : normalize ctx (q1.x - q0.x) (q1.y - q0.y) with ⟨dx2, dy2, len2⟩
            simp only [hN2]
            rw [round_cap_end_length]
            omega

theorem cverts_foldl_acc (cap : LineCap) (lj : LineJoin) (ncap : Nat) :
    ∀ (l : List PathBuilder) (a : Nat),
      l.foldl (fun acc p => acc + path_cverts p cap lj ncap) a =
        a + l.foldl (fun acc p => acc + path_cverts p cap lj ncap) 0 := by
  intro l
  induction l with
  | nil => simp
  | cons p tl ih =>
    intro a
    rw [List.foldl_cons, List.foldl_cons, ih, ih (0 + path_cverts p cap lj ncap)]
    omega

theorem cverts_of_cons (p : PathBuilder) (rest : List PathBuilder) (cap : LineCap)
    (lj : LineJoin) (ncap : Nat) :
    cverts_of (p :: rest) cap lj ncap =
      path_cverts p cap lj ncap + cverts_of rest cap lj ncap := by
  unfold cverts_of
  rw [List.foldl_cons, cverts_foldl_acc cap lj ncap rest]
  omega

theorem expand_go_length_le (ctx : Ctx) (pts : List Point) (cap : LineCap)
    (lj : LineJoin) (w : ℚ) (ncap : Nat) (aa u0 u1 : ℚ) (h2 : 2 ≤ ncap) :
    ∀ (paths : List PathBuilder) (vs : List Vertex),
      (∀ p ∈ paths, (seg pts p.first p.count).countP bevel_flagged ≤ p.nbevel) →
      (expand_go ctx pts cap lj w ncap aa u0 u1 paths vs).2.1.length ≤
        vs.length + cverts_of paths cap lj ncap := by
  intro paths
  induction paths with
  | nil =>
    intro vs hall
    simp [expand_go, cverts_of]
  | cons p rest ih =>
    intro vs hall
    have h1 := expand_one_length_le ctx pts p cap lj w ncap aa u0 u1 vs h2
      (hall p (by simp))
    rcases hE : expand_one ctx pts p cap lj w ncap aa u0 u1 vs with ⟨p', vs1, ok⟩
    rw [hE] at h1
    dsimp only at h1
    rw [cverts_of_cons]
    cases ok with
    | false =>
      simp only [expand_go, hE]
      omega
    | true =>
      simp only [expand_go, hE]
      have h3 := ih vs1 (fun q hq => hall q (by simp [hq]))
      rcases hR : expand_go ctx pts cap lj w ncap aa u0 u1 rest vs1 with ⟨restF, vs2, ok2⟩
      rw [hR] at h3
      dsimp only at h3
      simp only [hR]
      omega

theorem update_seg_length (pts : List Point) (first count : Nat)
    (f : List Point → List Point) (h : first + count ≤ pts.length)
    (hf : (f (seg pts first count)).length = count) :
    (update_seg pts first count f).length = pts.length := by
  unfold update_seg
  simp only [List.length_append, List.length_take, List.length_drop, hf]
  omega

theorem seg_update_seg_of_le (pts : List Point) (first count f' c' : Nat)
    (g : List Point → List Point) (hd : first + count ≤ f') (hf : f' ≤ pts.length) :
    seg (update_seg pts f' c' g) first count = seg pts first count := by
  unfold update_seg seg
  have hA : (pts.take f').length = f' := by
    simp only [List.length_take]
    omega
  rw [List.append_assoc, List.drop_append_eq_append_drop]
  have h0 : first - (pts.take f').length = 0 := by
    rw [hA]
    omega
  rw [h0, List.drop_zero, List.take_append_eq_append_take]
  have h1 : ((pts.take f').drop first).length = f' - first := by
    simp only [List.length_drop, hA]
  have h2 : count - ((pts.take f').drop first).length = 0 := by
    rw [h1]
    omega
  rw [h2, List.take_zero, List.append_nil, List.drop_take, List.take_take]
  congr 1
  omega

theorem calculate_joins_go_spec (iw : ℚ) (lj : LineJoin) (ml : ℚ) :
    ∀ (paths : List PathBuilder) (pts : List Point) (nleft lo : Nat),
      paths_in_order pts.length lo paths = true →
      (calculate_joins_go iw lj ml pts paths nleft).1.length = pts.length ∧
        (∀ first count, first + count ≤ lo →
          seg (calculate_joins_go iw lj ml pts paths nleft).1 first count =
            seg pts first count) ∧
        (∀ p' ∈ (calculate_joins_go iw lj ml pts paths nleft).2,
          (seg (calculate_joins_go iw lj ml pts paths nleft).1 p'.first
              p'.count).countP bevel_flagged ≤ p'.nbevel) := by
  intro paths
  induction paths with
  | nil =>
    intro pts nleft lo hord
    refine ⟨rfl, fun first count h => rfl, ?_⟩
    intro p' hp'
    simp only [calculate_joins_go] at hp'
    exact absurd hp' (List.not_mem_nil p')
  | cons p rest ih =>
    intro pts nleft lo hord
    have hord' : lo ≤ p.first ∧ p.first + p.count ≤ pts.length ∧
        paths_in_order pts.length (p.first + p.count) rest = true := by
      unfold paths_in_order at hord
      simp only [Bool.and_eq_true, decide_eq_true_eq] at hord
      exact ⟨hord.1.1, hord.1.2, hord.2⟩
    obtain ⟨hlo, hin, hrest⟩ := hord'
    set s := seg pts p.first p.count with hs
    set s' := (rotate_right s).zipWith (join_point iw lj ml) s with hs'
    have hlens : s'.length = p.count := by
      rw [hs', List.length_zipWith, rotate_right_length, hs,
        seg_length pts p.first p.count hin]
      omega
    set pts1 := update_seg pts p.first p.count (fun _ => s') with hpts1
    have hlen1 : pts1.length = pts.length :=
      update_seg_length pts p.first p.count (fun _ => s') hin hlens
    have hrest1 : paths_in_order pts1.length (p.first + p.count) rest = true := by
      rw [hlen1]
      exact hrest
    obtain ⟨ihlen, ihseg, ihnb⟩ := ih pts1 (nleft + s'.countP left_flagged)
      (p.first + p.count) hrest1
    have hgo : calculate_joins_go iw lj ml pts (p :: rest) nleft =
        ((calculate_joins_go iw lj ml pts1 rest (nleft + s'.countP left_flagged)).1,
          { p with nbevel := s'.countP bevel_flagged,
                   convex := decide (nleft + s'.countP left_flagged = p.count) } ::
            (calculate_joins_go iw lj ml pts1 rest (nleft + s'.countP left_flagged)).2) := by
      rw [calculate_joins_go]
    rw [hgo]
    refine ⟨by rw [ihlen, hlen1], ?_, ?_⟩
    · intro first count hfc
      rw [ihseg first count (by omega)]
      exact seg_update_seg_of_le pts first count p.first p.count (fun _ => s')
        (by omega) (by omega)
    · intro p' hp'
      rcases List.mem_cons.mp hp' with hface | htail
      · subst hface
        dsimp only
        have hseg1 : seg pts1 p.first p.count = s' :=
          seg_update_seg pts p.first p.count (fun _ => s') hin hlens
        rw [ihseg p.first p.count (le_refl _), hseg1]
      · exact ihnb p' htail

theorem calculate_joins_nbevel (c : PathCache) (w ml : ℚ) (lj : LineJoin)
    (hord : paths_in_order c.points.length 0 c.paths = true) :
    ∀ p' ∈ (calculate_joins c w lj ml).paths,
      (seg (calculate_joins c w lj ml).points p'.first p'.count).countP
          bevel_flagged ≤ p'.nbevel := by
  intro p' hp'
  unfold calculate_joins at hp' ⊢
  exact (calculate_joins_go_spec (if 0 < w then 1 / w else 0) lj ml c.paths c.points
    0 0 hord).2.2 p' hp'

/-- C1: the stroke expander never emits more vertices than the reservation it
computes before emission: for every well-formed cache (ordered,
non-overlapping sub-path segments, as the flattener produces) and every
stroke configuration, the total number of vertices `expand_stroke` places in
the vertex buffer is at most `cverts`, the sum over sub-paths of
`(count + nbevel·(ncap+2) + 1)·2` (Round join) or `(count + nbevel·5 + 1)·2`
(otherwise) plus `(ncap·2+2)·2` (Round caps) or `(3+3)·2` (Butt/Square caps)
for open sub-paths — so the pre-reserved buffer never reallocates
mid-emission. -/
theorem expand_stroke_reservation (ctx : Ctx) (c : PathCache) (w fringe : ℚ)
    (cap : LineCap) (lj : LineJoin) (ml tol : ℚ)
    (hord : paths_in_order c.points.length 0 c.paths = true) :
    (expand_stroke ctx c w fringe cap lj ml tol).1.verts.length ≤
      cverts_of (calculate_joins c (w + fringe * (1 / 2)) lj ml).paths cap lj
        (curve_divs ctx w ctx.piQ tol) := by
  have h2 : 2 ≤ curve_divs ctx w ctx.piQ tol := curve_divs_two_le ctx w ctx.piQ tol
  have hnb := calculate_joins_nbevel c (w + fringe * (1 / 2)) ml lj hord
  unfold expand_stroke
  dsimp only
  refine le_trans (expand_go_length_le ctx
    (calculate_joins c (w + fringe * (1 / 2)) lj ml).points cap lj
    (w + fringe * (1 / 2)) (curve_divs ctx w ctx.piQ tol) fringe _ _ h2
    (calculate_joins c (w + fringe * (1 / 2)) lj ml).paths [] hnb) ?_
  simp

/-- C1 witness: the reservation bound instantiated on a cache holding one
closed unit square, stroked with Butt caps and Miter joins at width 2
(`w = 1`), no fringe. -/
theorem expand_stroke_reservation_witness :
    (expand_stroke defaultCtx
        { points := unit_square_points 0, verts := [], paths := [square_path 0] }
        1 0 LineCap.Butt LineJoin.Miter 10 (1 / 4)).1.verts.length ≤
      cverts_of (calculate_joins
          { points := unit_square_points 0, verts := [], paths := [square_path 0] }
          (1 + 0 * (1 / 2)) LineJoin.Miter 10).paths LineCap.Butt LineJoin.Miter
        (curve_divs defaultCtx 1 defaultCtx.piQ (1 / 4)) :=
  expand_stroke_reservation defaultCtx
    { points := unit_square_points 0, verts := [], paths := [square_path 0] }
    1 0 LineCap.Butt LineJoin.Miter 10 (1 / 4) (by with_unfolding_all decide)

end RDraw
